import Mathlib

/-!
Shallow embedding of the SHARP Memory Display driver
(src/Adafruit_SharpMem.cpp) and verification of its specification claims.

Modelling conventions:
* The framebuffer (`sharpmem_buffer`, a `uint8_t *`) is modelled as a total
  function `Nat → Nat` from byte index to byte value.  The C allocation is
  `(WIDTH * HEIGHT) / 8` bytes; theorems about buffer contents state the
  relevant index ranges explicitly.
* `int16_t` / `uint16_t` arithmetic of the source is modelled on `Int` and
  `Nat`.  Every guard of the source keeps the subsequent arithmetic inside
  ranges where machine arithmetic and `Int`/`Nat` arithmetic agree, so no
  modular reduction is inserted.
* SPI traffic and the chip-select line are modelled as a list of events.
-/

namespace SharpMem

/-- A framebuffer: byte index to byte value. -/
abbrev Buf := Nat → Nat

/-- Store byte `v` at index `i` (a single `uint8_t` store). -/
def bufUpd (buf : Buf) (i v : Nat) : Buf := fun j => if j = i then v else buf j

/-- Read-modify-write OR of mask `m` into byte `i` (C `buf[i] |= m`). -/
def orAt (buf : Buf) (i m : Nat) : Buf := bufUpd buf i (buf i ||| m)

/-- Read-modify-write AND of mask `m` into byte `i` (C `buf[i] &= m`). -/
def andAt (buf : Buf) (i m : Nat) : Buf := bufUpd buf i (buf i &&& m)

/-- The lookup table `set[] = {1, 2, 4, 8, 16, 32, 64, 128}` (line 132).
The source always indexes it with `x & 7`. -/
def set (i : Nat) : Nat := [1, 2, 4, 8, 16, 32, 64, 128].getD i 0

/-- The lookup table `clr[]` (lines 133-135): bytewise complements of
`set[]`. -/
def clr (i : Nat) : Nat := [254, 253, 251, 247, 239, 223, 191, 127].getD i 0

/-- Row stride in bytes, the expression `(WIDTH + 7) / 8` of the source. -/
def rowBytes (W : Nat) : Nat := (W + 7) / 8

/-- Modelled from the spec: the logical canvas width `_width` maintained by
the graphics base class (not part of src).  Section 3 (LogicalCanvas) says
width and height swap under 90 and 270 degree rotation. -/
def logicalW (W H rot : Nat) : Nat := if rot % 2 = 1 then H else W

/-- Modelled from the spec: the logical canvas height `_height`, see
`logicalW`. -/
def logicalH (W H rot : Nat) : Nat := if rot % 2 = 1 then W else H

/-- The rotation switch that appears verbatim in both `drawPixel`
(lines 154-167) and `getPixel` (lines 252-265): case 1 swaps the
coordinates and then mirrors x, case 2 mirrors both coordinates, case 3
swaps and then mirrors y.  Any other value (only 0 occurs) leaves the
point unchanged. -/
def rotXY (W H rot x y : Nat) : Nat × Nat :=
  match rot with
  | 1 =>
    let x1 := y
    let y1 := x
    (W - 1 - x1, y1)
  | 2 => (W - 1 - x, H - 1 - y)
  | 3 =>
    let x1 := y
    let y1 := x
    (x1, H - 1 - y1)
  | _ => (x, y)

/-- The color switch of `drawPixel` (lines 169-233), operating on raw
(already rotated) coordinates.  Colors 1 and 0 (and the `default` branch
for colors above 7) use the row-stride index `(x / 8) + y * ((WIDTH+7)/8)`;
the dither branches 2..7 use the older index `(y * WIDTH + x) / 8`. -/
def drawPixelWrite (W x y color : Nat) (buf : Buf) : Buf :=
  match color with
  | 1 => orAt buf (x / 8 + y * rowBytes W) (set (x % 8))
  | 7 =>
    if y % 3 = 2 - x % 3 then andAt buf ((y * W + x) / 8) (clr (x % 8))
    else orAt buf ((y * W + x) / 8) (set (x % 8))
  | 6 =>
    if y % 3 = x % 3 then andAt buf ((y * W + x) / 8) (clr (x % 8))
    else orAt buf ((y * W + x) / 8) (set (x % 8))
  | 5 =>
    if (y % 4 = 0 ∧ x % 4 = 2) ∨ (x % 2 = 1 ∧ y % 2 = 1) ∨ (y % 4 = 2 ∧ x % 4 = 0) then
      andAt buf ((y * W + x) / 8) (clr (x % 8))
    else orAt buf ((y * W + x) / 8) (set (x % 8))
  | 4 =>
    if y % 2 ≠ 0 then orAt buf ((y * W + x) / 8) (set (x % 8))
    else if (x + 2 * (y / 2 % 2)) % 4 = 0 then andAt buf ((y * W + x) / 8) (clr (x % 8))
    else orAt buf ((y * W + x) / 8) (set (x % 8))
  | 3 =>
    if y % 2 ≠ 0 then andAt buf ((y * W + x) / 8) (clr (x % 8))
    else if (x + 2 * (y / 2 % 2)) % 4 = 0 then orAt buf ((y * W + x) / 8) (set (x % 8))
    else andAt buf ((y * W + x) / 8) (clr (x % 8))
  | 2 =>
    if (x + y) % 2 = 0 then orAt buf ((y * W + x) / 8) (set (x % 8))
    else andAt buf ((y * W + x) / 8) (clr (x % 8))
  | _ => andAt buf (x / 8 + y * rowBytes W) (clr (x % 8))

/-- `Adafruit_SharpMem::drawPixel` (lines 150-234): reject out-of-bounds
logical coordinates, rotate, then write according to the color switch. -/
def drawPixel (W H rot : Nat) (x y : Int) (color : Nat) (buf : Buf) : Buf :=
  if x < 0 ∨ (logicalW W H rot : Int) ≤ x ∨ y < 0 ∨ (logicalH W H rot : Int) ≤ y then buf
  else
    let p := rotXY W H rot x.toNat y.toNat
    drawPixelWrite W p.1 p.2 color buf

/-- `Adafruit_SharpMem::getPixel` (lines 248-268): `x` and `y` are
`uint16_t`, so only the upper bounds are checked; in range, rotate and read
the bit at `(y * WIDTH + x) / 8`, bit `x & 7`. -/
def getPixel (W H rot : Nat) (x y : Nat) (buf : Buf) : Nat :=
  if logicalW W H rot ≤ x ∨ logicalH W H rot ≤ y then 0
  else
    let p := rotXY W H rot x y
    if buf ((p.2 * W + p.1) / 8) &&& set (p.1 % 8) ≠ 0 then 1 else 0

/-- C `memset(ptr + p, v, n)` on the byte-function model (count first so
that the recursion is structural). -/
def memsetBytes (v : Nat) : Nat → Nat → Buf → Buf
  | 0, _, buf => buf
  | n + 1, p, buf => memsetBytes v n (p + 1) (bufUpd buf p v)

/-- `Adafruit_SharpMem::clearDisplayBuffer` (lines 371-373):
`memset(sharpmem_buffer, 0xff, (WIDTH * HEIGHT) / 8)`. -/
def clearDisplayBuffer (W H : Nat) (buf : Buf) : Buf :=
  memsetBytes 255 (W * H / 8) 0 buf

/-- `Adafruit_SharpMem::copyPixelBuffer` (lines 380-382):
`memcpy(bitmap, sharpmem_buffer, (WIDTH * HEIGHT) / 8)`, as the list of
bytes copied out. -/
def copyPixelBuffer (W H : Nat) (buf : Buf) : List Nat :=
  (List.range (W * H / 8)).map fun j => buf j

/-- `Adafruit_SharpMem::setBitmap` (lines 390-392):
`memcpy(sharpmem_buffer, bitmap, (WIDTH * HEIGHT) / 8)`. -/
def setBitmap (W H : Nat) (bitmap : Nat → Nat) (buf : Buf) : Buf :=
  fun j => if j < W * H / 8 then bitmap j else buf j

/-- The `y % 4` pattern table of color 7 inside `drawFastRawHLine`
(lines 497-512, repeated at 588-602 and 662-677). -/
def pat7 (y : Nat) : Nat := [0x77, 0xBB, 0xDD, 0xEE].getD (y % 4) 0

/-- The `y % 4` pattern table of color 6 (lines 515-530 and repeats). -/
def pat6 (y : Nat) : Nat := [0xEE, 0xDD, 0xBB, 0x77].getD (y % 4) 0

/-- The `y % 4` pattern table of color 5 (lines 533-548 and repeats). -/
def pat5 (y : Nat) : Nat := [0xEE, 0x55, 0xBB, 0x55].getD (y % 4) 0

/-- The masked pattern store idiom
`*ptr &= ~(mask & ~pattern); *ptr |= mask & pattern;` on bytes
(complement within a byte is xor with 255). -/
def applyMasked (b mask pattern : Nat) : Nat :=
  (b &&& (255 ^^^ (mask &&& (255 ^^^ pattern)))) ||| (mask &&& pattern)

/-- The per-color masked write used for the partial leading byte
(lines 497-577) and, with identical code, for the partial trailing byte
(lines 662-742) of `drawFastRawHLine`. -/
def maskedColorWrite (color y mask b : Nat) : Nat :=
  if color = 7 then applyMasked b mask (pat7 y)
  else if color = 6 then applyMasked b mask (pat6 y)
  else if color = 5 then applyMasked b mask (pat5 y)
  else if color = 4 then
    if y % 2 ≠ 0 then b ||| mask else applyMasked b mask 0x55
  else if color = 3 then
    if y % 2 ≠ 0 then b &&& (255 ^^^ mask) else applyMasked b mask 0xAA
  else if color = 2 then
    if y % 2 = 0 then applyMasked b mask 0xAA else applyMasked b mask 0x55
  else if color = 1 then b ||| mask
  else b &&& (255 ^^^ mask)

/-- The whole-byte fill value `wholeByteColor` of `drawFastRawHLine`
(lines 586-651). -/
def wholeByteColor (color y : Nat) : Nat :=
  if color = 7 then pat7 y
  else if color = 6 then pat6 y
  else if color = 5 then pat5 y
  else if color = 4 then (if y % 2 ≠ 0 then 0xFF else 0x55)
  else if color = 3 then (if y % 2 ≠ 0 then 0x00 else 0xAA)
  else if color = 2 then (if y % 2 = 0 then 0xAA else 0x55)
  else if 0 < color then 0xFF else 0x00

/-- The leading-byte mask loop of `drawFastRawHLine` (lines 491-495):
`for (i = x & 7; i < 8 && remaining > 0; i++) { mask |= set[i]; remaining--; }`.
The fuel argument is `8 - i`, the maximal number of iterations, so the
recursion is structural; the result is the pair (mask, remaining). -/
def startMaskAux : Nat → Nat → Nat → Nat → Nat × Nat
  | 0, _, r, acc => (acc, r)
  | fuel + 1, i, r, acc =>
    if 0 < r then startMaskAux fuel (i + 1) (r - 1) (acc ||| set i) else (acc, r)

/-- The trailing-byte mask loop (lines 656-659):
`for (i = 0; i < lastBits; i++) mask |= set[i];`. -/
def lastByteMask : Nat → Nat
  | 0 => 0
  | n + 1 => lastByteMask n ||| set n

/-- The OR loop of `drawFastRawVLine` (lines 466-469): `h` stores of
`*ptr |= m` advancing by `step` bytes each row. -/
def vlineOrLoop (step m : Nat) : Nat → Nat → Buf → Buf
  | 0, _, buf => buf
  | h + 1, i, buf => vlineOrLoop step m h (i + step) (orAt buf i m)

/-- The AND loop of `drawFastRawVLine` (lines 473-476): `h` stores of
`*ptr &= m` advancing by `step` bytes each row. -/
def vlineAndLoop (step m : Nat) : Nat → Nat → Buf → Buf
  | 0, _, buf => buf
  | h + 1, i, buf => vlineAndLoop step m h (i + step) (andAt buf i m)

/-- `Adafruit_SharpMem::drawFastRawVLine` (lines 450-478).  The comment in
the source says the coordinates are already raw (rotation 0), so they are
taken as `Nat`; every in-library call site passes clipped in-range values. -/
def drawFastRawVLine (W : Nat) (x y h : Nat) (color : Nat) (buf : Buf) : Buf :=
  let row_bytes := rowBytes W
  let i0 := x / 8 + y * row_bytes
  if 0 < color then
    let bit_mask := set (x % 8)
    let bit_mask :=
      if color = 2 then (if y % 2 = 0 then bit_mask &&& 0xAA else bit_mask &&& 0x55)
      else bit_mask
    vlineOrLoop row_bytes bit_mask h i0 buf
  else
    vlineAndLoop row_bytes (clr (x % 8)) h i0 buf

/-- `Adafruit_SharpMem::drawFastRawHLine` (lines 481-745): partial leading
byte, whole middle bytes via `memset`, partial trailing byte. -/
def drawFastRawHLine (W : Nat) (x y w : Nat) (color : Nat) (buf : Buf) : Buf :=
  let rb := rowBytes W
  let p0 := x / 8 + y * rb
  let step1 : Buf × Nat × Nat :=
    if 0 < x % 8 then
      let ms := startMaskAux (8 - x % 8) (x % 8) w 0
      (bufUpd buf p0 (maskedColorWrite color y ms.1 (buf p0)), p0 + 1, ms.2)
    else (buf, p0, w)
  let buf1 := step1.1
  let p1 := step1.2.1
  let remaining := step1.2.2
  if 0 < remaining then
    let wholeBytes := remaining / 8
    let lastBits := remaining % 8
    let buf2 := memsetBytes (wholeByteColor color y) wholeBytes p1 buf1
    if 0 < lastBits then
      bufUpd buf2 (p1 + wholeBytes)
        (maskedColorWrite color y (lastByteMask lastBits) (buf2 (p1 + wholeBytes)))
    else buf2
  else buf1

/-- `Adafruit_SharpMem::drawFastHLine` (lines 403-447): normalize a
negative width, reject fully off-canvas runs, clip left and right against
the logical canvas, then dispatch on the rotation to a raw horizontal or
vertical run.  The `.toNat` conversions are exact: the guard and the clips
leave all converted values nonnegative. -/
def drawFastHLine (W H rot : Nat) (x y w : Int) (color : Nat) (buf : Buf) : Buf :=
  let n : Int × Int :=
    if w < 0 then
      let w1 := -w
      let x1 := x - (w1 - 1)
      if x1 < 0 then (0, w1 + x1) else (x1, w1)
    else (x, w)
  let xa := n.1
  let wa := n.2
  if y < 0 ∨ (logicalH W H rot : Int) ≤ y ∨ (logicalW W H rot : Int) ≤ xa ∨
      xa + wa - 1 < 0 then buf
  else
    let c1 : Int × Int := if xa < 0 then (0, wa + xa) else (xa, wa)
    let xb := c1.1
    let wb := c1.2
    let wc : Int := if (logicalW W H rot : Int) ≤ xb + wb then (logicalW W H rot : Int) - xb else wb
    match rot with
    | 0 => drawFastRawHLine W xb.toNat y.toNat wc.toNat color buf
    | 1 => drawFastRawVLine W ((W : Int) - 1 - y).toNat xb.toNat wc.toNat color buf
    | 2 =>
      let x2 := (W : Int) - 1 - xb
      let y2 := (H : Int) - 1 - y
      drawFastRawHLine W (x2 - (wc - 1)).toNat y2.toNat wc.toNat color buf
    | 3 =>
      let y3 := (H : Int) - 1 - xb
      drawFastRawVLine W y.toNat (y3 - (wc - 1)).toNat wc.toNat color buf
    | _ => buf

/-- The row loop of `Adafruit_SharpMem::fillRect` (lines 395-400):
`for (i = y; i < y + h; i++) drawFastHLine(x, i, w, color);` with the
iteration count `h.toNat` made explicit. -/
def fillRectLoop (W H rot : Nat) (x w : Int) (color : Nat) : Nat → Int → Buf → Buf
  | 0, _, buf => buf
  | n + 1, i, buf => fillRectLoop W H rot x w color n (i + 1) (drawFastHLine W H rot x i w color buf)

/-- `Adafruit_SharpMem::fillRect` (lines 395-400). -/
def fillRect (W H rot : Nat) (x y w h : Int) (color : Nat) (buf : Buf) : Buf :=
  fillRectLoop W H rot x w color h.toNat y buf

/-- Specification-side reference for claim C2: the pixel-by-pixel loop,
`w` calls of `drawPixel` at consecutive x positions on row `y`. -/
def hlinePixelLoop (W H rot : Nat) (y : Int) (color : Nat) : Nat → Int → Buf → Buf
  | 0, _, buf => buf
  | n + 1, x, buf => hlinePixelLoop W H rot y color n (x + 1) (drawPixel W H rot x y color buf)

/-- Specification-side reference for claim C2: draw the logical run of
`drawFastHLine` one pixel at a time.  A negative width is normalized to the
run covering `x + w + 1 .. x`, exactly the run the fast path normalizes to
(its additional early left-clip only discards pixels that `drawPixel`
rejects anyway). -/
def drawHLineByPixels (W H rot : Nat) (x y w : Int) (color : Nat) (buf : Buf) : Buf :=
  let n : Int × Int := if w < 0 then (x - (-w - 1), -w) else (x, w)
  hlinePixelLoop W H rot y color n.2.toNat n.1 buf

/-- Driver state owned by the object: the pixel buffer and the
`_sharpmem_vcom` bit. -/
structure State where
  buffer : Buf
  vcom : Nat

/-- One observable action on the transport: SPI transaction begin/end, a
chip-select level change (`digitalWrite(_cs, ...)`, true = HIGH), or a
byte transfer. -/
inductive Event where
  | beginTxn : Event
  | cs : Bool → Event
  | xfer : List Nat → Event
  | endTxn : Event
deriving DecidableEq

/-- Modelled from the spec: the command bit constants are defined in
Adafruit_SharpMem.h, which is not under src.  The spec calls them the
write flag, the vcom bit and the clear flag; the values are the library
constants for LSB-first transmission.  All theorems use them symbolically
except that toggling needs the vcom constant to be nonzero. -/
def SHARPMEM_BIT_WRITECMD : Nat := 0x01

/-- Modelled from the spec: the vcom polarity bit, see
`SHARPMEM_BIT_WRITECMD`. -/
def SHARPMEM_BIT_VCOM : Nat := 0x02

/-- Modelled from the spec: the clear-command flag, see
`SHARPMEM_BIT_WRITECMD`. -/
def SHARPMEM_BIT_CLEAR : Nat := 0x04

/-- The `TOGGLE_VCOM` macro (lines 55-58):
`_sharpmem_vcom = _sharpmem_vcom ? 0x00 : SHARPMEM_BIT_VCOM;`. -/
def vcomToggle (v : Nat) : Nat := if v ≠ 0 then 0 else SHARPMEM_BIT_VCOM

/-- All transferred bytes of an event list, in order. -/
def txBytes : List Event → List Nat
  | [] => []
  | Event.xfer bs :: es => bs ++ txBytes es
  | _ :: es => txBytes es

/-- `Adafruit_SharpMem::clearDisplay` (lines 312-326): clear the buffer to
all white, then send the two-byte clear command inside a transaction with
the (active HIGH) chip select raised, toggling vcom. -/
def clearDisplay (W H : Nat) (s : State) : State × List Event :=
  ({ buffer := memsetBytes 255 (W * H / 8) 0 s.buffer, vcom := vcomToggle s.vcom },
   [Event.beginTxn, Event.cs true,
    Event.xfer [s.vcom ||| SHARPMEM_BIT_CLEAR, 0x00],
    Event.cs false, Event.endTxn])

/-- The row loop of `refresh` (lines 346-358): starting from byte `i = 0`
and stepping by `bytes_per_line` while `i < totalbytes`, transfer the
record `{(i + 1) / bytes_per_line + 1, line bytes..., 0x00}`.  The fuel
argument (`totalbytes` at the top call) bounds the iteration count, which
is exact whenever `bytes_per_line ≥ 1`; for `bytes_per_line = 0` the C
loop would not terminate, and every theorem below assumes `WIDTH ≥ 8`. -/
def refreshLoop (buf : Buf) (bpl total : Nat) : Nat → Nat → List Event
  | 0, _ => []
  | fuel + 1, i =>
    if i < total then
      Event.xfer (((i + 1) / bpl + 1) :: (((List.range bpl).map fun j => buf (i + j)) ++ [0x00]))
        :: refreshLoop buf bpl total fuel (i + bpl)
    else []

/-- `Adafruit_SharpMem::refresh` (lines 333-364): inside a transaction with
chip select raised, send the write command byte, toggle vcom, send one
record per line, then one trailing zero byte. -/
def refresh (W H : Nat) (s : State) : State × List Event :=
  let bpl := W / 8
  let total := W * H / 8
  ({ s with vcom := vcomToggle s.vcom },
   [Event.beginTxn, Event.cs true, Event.xfer [s.vcom ||| SHARPMEM_BIT_WRITECMD]]
     ++ refreshLoop s.buffer bpl total total 0
     ++ [Event.xfer [0x00], Event.cs false, Event.endTxn])

/-- State-level view of `drawPixel`: the source function touches only
`sharpmem_buffer`, never `_sharpmem_vcom`. -/
def drawPixelS (W H rot : Nat) (x y : Int) (color : Nat) (s : State) : State :=
  { s with buffer := drawPixel W H rot x y color s.buffer }

/-- State-level view of `drawFastHLine` (buffer only, see `drawPixelS`). -/
def drawFastHLineS (W H rot : Nat) (x y w : Int) (color : Nat) (s : State) : State :=
  { s with buffer := drawFastHLine W H rot x y w color s.buffer }

/-- State-level view of `drawFastRawHLine` (buffer only). -/
def drawFastRawHLineS (W : Nat) (x y w : Nat) (color : Nat) (s : State) : State :=
  { s with buffer := drawFastRawHLine W x y w color s.buffer }

/-- State-level view of `drawFastRawVLine` (buffer only). -/
def drawFastRawVLineS (W : Nat) (x y h : Nat) (color : Nat) (s : State) : State :=
  { s with buffer := drawFastRawVLine W x y h color s.buffer }

/-- State-level view of `fillRect` (buffer only). -/
def fillRectS (W H rot : Nat) (x y w h : Int) (color : Nat) (s : State) : State :=
  { s with buffer := fillRect W H rot x y w h color s.buffer }

/-- State-level view of `clearDisplayBuffer` (buffer only). -/
def clearDisplayBufferS (W H : Nat) (s : State) : State :=
  { s with buffer := clearDisplayBuffer W H s.buffer }

/-- State-level view of `setBitmap` (buffer only). -/
def setBitmapS (W H : Nat) (bitmap : Nat → Nat) (s : State) : State :=
  { s with buffer := setBitmap W H bitmap s.buffer }

/-- `Adafruit_SharpMem::drawFatLine` (lines 275-305).  Two pieces of the
source are external to src and are therefore parameters: `fillTriangle`
belongs to the graphics base class (the spec says shape decomposition is
built atop the pixel and line primitives), and the perpendicular offsets
`(int)px, (int)py` are computed with floating-point `sqrt`, so their
integer results are taken as the parameters `ipx, ipy`.  The degeneracy
test `l < 1` on the float length is exact on the integer squared length,
which is how it is written here. -/
def drawFatLine (fillTriangle : Int → Int → Int → Int → Int → Int → Nat → State → State)
    (ipx ipy : Int) (x0 y0 x1 y1 strokeWidth : Int) (color : Nat) (s : State) : State :=
  if strokeWidth < 1 then s
  else if (y1 - y0) * (y1 - y0) + (x1 - x0) * (x1 - x0) < 1 then s
  else
    fillTriangle (x0 + ipx) (y0 + ipy) (x1 - ipx) (y1 - ipy) (x0 - ipx) (y0 - ipy) color
      (fillTriangle (x0 + ipx) (y0 + ipy) (x1 + ipx) (y1 + ipy) (x1 - ipx) (y1 - ipy) color s)

/-- Specification-side reading convention: bit of raw pixel (x, y) under
the row-stride layout `store[(x / 8) + y * row_stride]`, bit `x mod 8`
(the BitFramebuffer invariant of the spec). -/
def rawTestBit (W : Nat) (buf : Buf) (x y : Nat) : Bool :=
  Nat.testBit (buf (x / 8 + y * rowBytes W)) (x % 8)

/-- An all-zero framebuffer, used as the concrete buffer of witnesses. -/
def zeroBuf : Buf := fun _ => 0

/-- OR-mask of `k` consecutive bits starting at bit `i`: the value the
leading-byte mask loop of `drawFastRawHLine` accumulates over `k`
iterations from bit `i`. -/
def maskRange : Nat → Nat → Nat
  | _, 0 => 0
  | i, k + 1 => set i ||| maskRange (i + 1) k

/-- AND-mask leaving all bits except `k` consecutive bits from bit `i`. -/
def clrRange : Nat → Nat → Nat
  | _, 0 => 255
  | i, k + 1 => clr i &&& clrRange (i + 1) k

/-- Reference run for claim C2: `n` single-bit white writes along row `y`
starting at raw column `x`, exactly what `n` in-bounds white `drawPixel`
calls at rotation 0 perform. -/
def bitRunOr (W y : Nat) : Nat → Nat → Buf → Buf
  | 0, _, buf => buf
  | n + 1, x, buf => bitRunOr W y n (x + 1) (orAt buf (x / 8 + y * rowBytes W) (set (x % 8)))

/-- Reference run for claim C2, black variant. -/
def bitRunAnd (W y : Nat) : Nat → Nat → Buf → Buf
  | 0, _, buf => buf
  | n + 1, x, buf => bitRunAnd W y n (x + 1) (andAt buf (x / 8 + y * rowBytes W) (clr (x % 8)))

end SharpMem

namespace SharpMem

/-! ## Basic buffer lemmas -/

theorem bufUpd_apply (buf : Buf) (i v j : Nat) :
    bufUpd buf i v j = if j = i then v else buf j := rfl

theorem bufUpd_self (buf : Buf) (i : Nat) : bufUpd buf i (buf i) = buf := by
  funext j
  simp only [bufUpd]
  split
  · subst j; rfl
  · rfl

theorem memsetBytes_get (v : Nat) :
    ∀ (n p : Nat) (buf : Buf) (j : Nat),
      memsetBytes v n p buf j = if p ≤ j ∧ j < p + n then v else buf j := by
  intro n
  induction n with
  | zero =>
    intro p buf j
    rw [memsetBytes, if_neg (by omega)]
  | succ n ih =>
    intro p buf j
    rw [memsetBytes, ih]
    by_cases h1 : p + 1 ≤ j ∧ j < p + 1 + n
    · rw [if_pos h1, if_pos (by omega)]
    · rw [if_neg h1]
      by_cases hj : j = p
      · subst hj
        have hc : j ≤ j ∧ j < j + (n + 1) := by omega
        rw [if_pos hc, bufUpd_apply, if_pos rfl]
      · simp only [bufUpd_apply, if_neg hj]
        rw [if_neg (by omega)]

/-! ## Claim C1 -/

/-- C1 (code_bug evidence): the round-trip law fails on a panel whose width
is not a multiple of 8.  On a 10 x 2 panel at rotation 0, with an all-zero
buffer, `drawPixel(0, 1, 1)` stores bit 0 of byte 2 (row-stride index
`(x / 8) + y * ((WIDTH + 7) / 8)`), but `getPixel(0, 1)` reads bit 0 of
byte 1 (index `(y * WIDTH + x) / 8`), so the freshly written white pixel
reads back as 0, where the claim requires 1. -/
theorem c1_roundtrip_fails_at_width_10 :
    getPixel 10 2 0 0 1 (drawPixel 10 2 0 0 1 1 zeroBuf) = 0 := by decide

/-! ## Claim C5 -/

/-- C5: the rotation mapping used by `drawPixel` and `getPixel` is
rot0 (x,y) -> (x,y), rot1 (x,y) -> (W-1-y, x), rot2 (x,y) -> (W-1-x, H-1-y),
rot3 (x,y) -> (y, H-1-x) on in-bounds logical coordinates, and on a 16 x 8
raw panel, drawing at logical (0,0) under rotation 1 changes the buffer
exactly as drawing at raw (15,0) under rotation 0 (and reading agrees),
for every color. -/
theorem c5_rotation_mapping :
    (∀ W H x y : Nat, x < logicalW W H 0 → y < logicalH W H 0 → rotXY W H 0 x y = (x, y))
    ∧ (∀ W H x y : Nat, x < logicalW W H 1 → y < logicalH W H 1 →
        rotXY W H 1 x y = (W - 1 - y, x))
    ∧ (∀ W H x y : Nat, x < logicalW W H 2 → y < logicalH W H 2 →
        rotXY W H 2 x y = (W - 1 - x, H - 1 - y))
    ∧ (∀ W H x y : Nat, x < logicalW W H 3 → y < logicalH W H 3 →
        rotXY W H 3 x y = (y, H - 1 - x))
    ∧ (∀ color buf, drawPixel 16 8 1 0 0 color buf = drawPixel 16 8 0 15 0 color buf)
    ∧ (∀ buf, getPixel 16 8 1 0 0 buf = getPixel 16 8 0 15 0 buf) := by
  refine ⟨fun W H x y _ _ => rfl, fun W H x y _ _ => rfl, fun W H x y _ _ => rfl,
    fun W H x y _ _ => rfl, fun color buf => rfl, fun buf => rfl⟩

/-- Witness for C5 at a concrete in-bounds input. -/
theorem c5_rotation_mapping_witness :
    rotXY 16 8 1 2 3 = (16 - 1 - 3, 2)
    ∧ drawPixel 16 8 1 0 0 5 zeroBuf = drawPixel 16 8 0 15 0 5 zeroBuf :=
  ⟨c5_rotation_mapping.2.1 16 8 2 3 (by decide) (by decide),
   c5_rotation_mapping.2.2.2.2.1 5 zeroBuf⟩

/-! ## Claim C7 -/

/-- C7: out-of-bounds coordinates are rejected: `drawPixel` leaves the
buffer untouched and `getPixel` returns 0 (its arguments are unsigned, so
out of bounds means at least the logical width or height). -/
theorem c7_out_of_bounds_noop :
    (∀ (W H rot : Nat) (color : Nat) (buf : Buf) (x y : Int),
      (x < 0 ∨ (logicalW W H rot : Int) ≤ x ∨ y < 0 ∨ (logicalH W H rot : Int) ≤ y) →
      drawPixel W H rot x y color buf = buf)
    ∧ (∀ (W H rot : Nat) (buf : Buf) (x y : Nat),
      (logicalW W H rot ≤ x ∨ logicalH W H rot ≤ y) →
      getPixel W H rot x y buf = 0) := by
  constructor
  · intro W H rot color buf x y h
    simp only [drawPixel, if_pos h]
  · intro W H rot buf x y h
    simp only [getPixel, if_pos h]

/-- Witness for C7 at concrete out-of-bounds inputs. -/
theorem c7_out_of_bounds_noop_witness :
    drawPixel 8 8 0 (-1) 0 1 zeroBuf = zeroBuf ∧ getPixel 8 8 0 8 0 zeroBuf = 0 :=
  ⟨c7_out_of_bounds_noop.1 8 8 0 1 zeroBuf (-1) 0 (by decide),
   c7_out_of_bounds_noop.2 8 8 0 zeroBuf 8 0 (by decide)⟩

/-! ## Claim C6 -/

/-- C6 counterexample: on a 10 x 2 panel the snapshot written by
`copyPixelBuffer` after `clearDisplayBuffer` has `(10 * 2) / 8 = 2` bytes,
not `row_stride * height = ceil(10 / 8) * 2 = 4` as the claim states. -/
theorem c6_snapshot_size_counterexample :
    (copyPixelBuffer 10 2 (clearDisplayBuffer 10 2 zeroBuf)).length ≠ rowBytes 10 * 2 := by
  decide

/-- C6 (amended): after `clearDisplayBuffer`, the snapshot produced by
`copyPixelBuffer` consists of exactly `(width * height) / 8` bytes (the
allocated buffer size, which equals `row_stride * height` exactly when the
width is a multiple of 8), every one of them equal to 0xFF. -/
theorem c6_clear_copy_all_white (W H : Nat) (buf : Buf) :
    copyPixelBuffer W H (clearDisplayBuffer W H buf) = List.replicate (W * H / 8) 255 := by
  unfold copyPixelBuffer clearDisplayBuffer
  refine List.eq_replicate_iff.2 ⟨by simp, ?_⟩
  intro b hb
  rcases List.mem_map.1 hb with ⟨j, hj, rfl⟩
  rw [List.mem_range] at hj
  rw [memsetBytes_get, if_pos (by omega)]

end SharpMem

namespace SharpMem

/-! ## Claim C8 -/

/-- C8: `clearDisplay` transfers exactly the two bytes
`{vcom | SHARPMEM_BIT_CLEAR, 0x00}` with chip select raised before the
transfer and lowered before the transaction ends, toggles vcom, and sets
every byte of the in-memory framebuffer (its `(W * H) / 8` allocated
bytes) to 0xFF. -/
theorem c8_clear_display_protocol :
    ∀ (W H : Nat) (s : State),
      (clearDisplay W H s).2 =
        [Event.beginTxn, Event.cs true,
         Event.xfer [s.vcom ||| SHARPMEM_BIT_CLEAR, 0x00],
         Event.cs false, Event.endTxn]
      ∧ txBytes (clearDisplay W H s).2 = [s.vcom ||| SHARPMEM_BIT_CLEAR, 0x00]
      ∧ (txBytes (clearDisplay W H s).2).length = 2
      ∧ (clearDisplay W H s).1.vcom = vcomToggle s.vcom
      ∧ (∀ j, j < W * H / 8 → (clearDisplay W H s).1.buffer j = 255) := by
  intro W H s
  refine ⟨rfl, rfl, rfl, rfl, ?_⟩
  intro j hj
  show memsetBytes 255 (W * H / 8) 0 s.buffer j = 255
  rw [memsetBytes_get, if_pos (by omega)]

/-- Witness for C8 on an 8 x 1 panel. -/
theorem c8_clear_display_protocol_witness :
    txBytes (clearDisplay 8 1 ⟨zeroBuf, 2⟩).2 = [2 ||| SHARPMEM_BIT_CLEAR, 0x00]
    ∧ (clearDisplay 8 1 ⟨zeroBuf, 2⟩).1.buffer 0 = 255 :=
  ⟨(c8_clear_display_protocol 8 1 ⟨zeroBuf, 2⟩).2.1,
   (c8_clear_display_protocol 8 1 ⟨zeroBuf, 2⟩).2.2.2.2 0 (by decide)⟩

/-! ## Claim C10 -/

/-- C10: `refresh` only reads the framebuffer (the row records are copied
out of it); the buffer after the call is the buffer before it, and the
only driver state that changes is the vcom bit, which is toggled.  The
hypothesis `1 ≤ W / 8` excludes widths below 8, for which the C row loop
would not terminate. -/
theorem c10_refresh_preserves_buffer :
    ∀ (W H : Nat) (s : State), 1 ≤ W / 8 →
      (refresh W H s).1.buffer = s.buffer ∧ (refresh W H s).1.vcom = vcomToggle s.vcom :=
  fun _ _ _ _ => ⟨rfl, rfl⟩

/-- Witness for C10 on an 8 x 1 panel. -/
theorem c10_refresh_preserves_buffer_witness :
    (refresh 8 1 ⟨zeroBuf, 2⟩).1.buffer = zeroBuf
    ∧ (refresh 8 1 ⟨zeroBuf, 2⟩).1.vcom = vcomToggle 2 :=
  c10_refresh_preserves_buffer 8 1 ⟨zeroBuf, 2⟩ (by decide)

/-! ## Claim C4 -/

/-- C4: `clearDisplay` and `refresh` each set vcom to its toggled value
(and toggling always changes it), while none of the pixel-writing
operations (`drawPixel`, `drawFastHLine`, `drawFastRawHLine`,
`drawFastRawVLine`, `fillRect`, `drawFatLine`, `clearDisplayBuffer`,
`setBitmap`) touches vcom.  For `drawFatLine` the external triangle
rasterizer is any function that itself leaves vcom unchanged (the spec
says it only calls back into the pixel and line primitives, which do). -/
theorem c4_vcom_discipline :
    (∀ (W H : Nat) (s : State), (clearDisplay W H s).1.vcom = vcomToggle s.vcom)
    ∧ (∀ (W H : Nat) (s : State), 1 ≤ W / 8 → (refresh W H s).1.vcom = vcomToggle s.vcom)
    ∧ (∀ v : Nat, vcomToggle v ≠ v)
    ∧ (∀ W H rot x y color s, (drawPixelS W H rot x y color s).vcom = s.vcom)
    ∧ (∀ W H rot x y w color s, (drawFastHLineS W H rot x y w color s).vcom = s.vcom)
    ∧ (∀ W x y w color s, (drawFastRawHLineS W x y w color s).vcom = s.vcom)
    ∧ (∀ W x y h color s, (drawFastRawVLineS W x y h color s).vcom = s.vcom)
    ∧ (∀ W H rot x y w h color s, (fillRectS W H rot x y w h color s).vcom = s.vcom)
    ∧ (∀ W H s, (clearDisplayBufferS W H s).vcom = s.vcom)
    ∧ (∀ W H bitmap s, (setBitmapS W H bitmap s).vcom = s.vcom)
    ∧ (∀ (ft : Int → Int → Int → Int → Int → Int → Nat → State → State),
        (∀ a b c d e f color t, (ft a b c d e f color t).vcom = t.vcom) →
        ∀ ipx ipy x0 y0 x1 y1 sw color s,
          (drawFatLine ft ipx ipy x0 y0 x1 y1 sw color s).vcom = s.vcom) := by
  refine ⟨fun _ _ _ => rfl, fun _ _ _ _ => rfl, ?_, fun _ _ _ _ _ _ _ => rfl,
    fun _ _ _ _ _ _ _ _ => rfl, fun _ _ _ _ _ _ => rfl, fun _ _ _ _ _ _ => rfl,
    fun _ _ _ _ _ _ _ _ _ => rfl, fun _ _ _ => rfl, fun _ _ _ _ => rfl, ?_⟩
  · intro v
    unfold vcomToggle
    split
    · omega
    · simp only [SHARPMEM_BIT_VCOM]
      omega
  · intro ft hft ipx ipy x0 y0 x1 y1 sw color s
    unfold drawFatLine
    split
    · rfl
    · split
      · rfl
      · rw [hft, hft]

/-- Witness for C4: the refresh clause and the drawFatLine clause at
concrete inputs. -/
theorem c4_vcom_discipline_witness :
    (refresh 8 1 ⟨zeroBuf, 2⟩).1.vcom = vcomToggle 2
    ∧ (drawFatLine (fun _ _ _ _ _ _ _ t => t) 0 0 0 0 1 1 1 1 ⟨zeroBuf, 2⟩).vcom = 2 :=
  ⟨c4_vcom_discipline.2.1 8 1 ⟨zeroBuf, 2⟩ (by decide),
   c4_vcom_discipline.2.2.2.2.2.2.2.2.2.2 (fun _ _ _ _ _ _ _ t => t)
     (fun _ _ _ _ _ _ _ _ => rfl) 0 0 0 0 1 1 1 1 ⟨zeroBuf, 2⟩⟩

/-! ## Claim C3 -/

/-- The row loop of `refresh`, unrolled: starting at byte `i` with
`m * k` bytes left and at least `k` units of fuel, it emits exactly `k`
records. -/
theorem refreshLoop_rows (buf : Buf) (m : Nat) (hm : 1 ≤ m) :
    ∀ (k i fuel : Nat), k ≤ fuel →
      refreshLoop buf m (i + m * k) fuel i =
        (List.range k).map fun t =>
          Event.xfer (((i + m * t + 1) / m + 1) ::
            (((List.range m).map fun j => buf (i + m * t + j)) ++ [0x00])) := by
  intro k
  induction k with
  | zero =>
    intro i fuel _
    cases fuel with
    | zero => rw [refreshLoop]; rfl
    | succ f =>
      rw [refreshLoop, if_neg (by omega)]
      rfl
  | succ k ih =>
    intro i fuel hf
    cases fuel with
    | zero => omega
    | succ f =>
      rw [refreshLoop, if_pos (by nlinarith)]
      have e2 : i + m * (k + 1) = (i + m) + m * k := by ring
      rw [e2, ih (i + m) f (by omega)]
      rw [List.range_succ_eq_map, List.map_cons, List.map_map]
      refine congrArg₂ List.cons ?_ ?_
      · norm_num
      · refine List.map_congr_left fun t _ => ?_
        have e3 : i + m + m * t = i + m * (t + 1) := by ring
        simp only [Function.comp, Nat.succ_eq_add_one, e3]

/-- The address byte `((i + 1) / bytes_per_line) + 1` at `i = m * r`:
row `r` gets `r + 1` when there are at least two bytes per line, but
`r + 2` when `bytes_per_line = 1`. -/
theorem addr_byte (m r : Nat) (hm : 1 ≤ m) :
    (m * r + 1) / m + 1 = if m = 1 then r + 2 else r + 1 := by
  by_cases h1 : m = 1
  · subst h1; norm_num
  · rw [if_neg h1, Nat.mul_add_div (by omega), Nat.div_eq_of_lt (by omega)]

/-- C3 (amended): on a panel of width `8 * m` (a multiple of 8, so that
`bytes_per_line` equals the row stride) with `m ≥ 1`, a `refresh` call
emits, inside one transaction with chip select raised: one command byte
`vcom | SHARPMEM_BIT_WRITECMD`, then exactly `height` row records, each
consisting of one address byte (`r + 1` for row `r` when the width is at
least 16, but `r + 2` when the width is exactly 8), the `m = row_stride`
framebuffer bytes of that row copied verbatim, and a 0x00 trailer, and
finally one trailing 0x00 byte. -/
theorem c3_refresh_frame_format (m H : Nat) (hm : 1 ≤ m) (buf : Buf) (v : Nat) :
    (refresh (8 * m) H ⟨buf, v⟩).2 =
      [Event.beginTxn, Event.cs true, Event.xfer [v ||| SHARPMEM_BIT_WRITECMD]]
        ++ ((List.range H).map fun r =>
              Event.xfer ((if m = 1 then r + 2 else r + 1) ::
                (((List.range m).map fun j => buf (m * r + j)) ++ [0x00])))
        ++ [Event.xfer [0x00], Event.cs false, Event.endTxn] := by
  have hbpl : 8 * m / 8 = m := by omega
  have htot : 8 * m * H / 8 = m * H := by
    rw [Nat.mul_assoc, Nat.mul_div_cancel_left _ (by norm_num : 0 < 8)]
  have hfuel : H ≤ m * H := Nat.le_mul_of_pos_left H (by omega)
  show _ ++ refreshLoop buf (8 * m / 8) (8 * m * H / 8) (8 * m * H / 8) 0 ++ _ = _
  rw [hbpl, htot]
  have h0 : m * H = 0 + m * H := by omega
  rw [h0, refreshLoop_rows buf m hm H 0 (0 + m * H) (by omega)]
  refine congrArg₂ (· ++ ·) (congrArg₂ (· ++ ·) rfl ?_) rfl
  refine List.map_congr_left fun t _ => ?_
  have e1 : 0 + m * t = m * t := by omega
  rw [e1]
  rw [show (m * t + 1) / m + 1 = if m = 1 then t + 2 else t + 1 from addr_byte m t hm]

/-- Witness for C3 on an 8 x 2 panel (`m = 1`). -/
theorem c3_refresh_frame_format_witness :
    (refresh (8 * 1) 2 ⟨zeroBuf, 2⟩).2 =
      [Event.beginTxn, Event.cs true, Event.xfer [2 ||| SHARPMEM_BIT_WRITECMD]]
        ++ ((List.range 2).map fun r =>
              Event.xfer ((if 1 = 1 then r + 2 else r + 1) ::
                (((List.range 1).map fun j => zeroBuf (1 * r + j)) ++ [0x00])))
        ++ [Event.xfer [0x00], Event.cs false, Event.endTxn] :=
  c3_refresh_frame_format 1 2 (by decide) zeroBuf 2

/-- C3 counterexample: on an 8 pixel wide panel (`row_stride = 1`,
`bytes_per_line = 1`) the address byte of row 0 is
`((0 + 1) / 1) + 1 = 2`, not `1`: with vcom = 2 and an all-zero buffer
the emitted bytes are `[3, 2, 0, 0, 0]`, while the claim requires
`[3, 1, 0, 0, 0]` (command byte, then `{row + 1, row bytes, 0x00}`, then
the trailing 0x00). -/
theorem c3_address_byte_counterexample :
    txBytes (refresh 8 1 ⟨zeroBuf, 2⟩).2 = [3, 2, 0, 0, 0]
    ∧ txBytes (refresh 8 1 ⟨zeroBuf, 2⟩).2 ≠ [3, 1, 0, 0, 0] := by
  exact ⟨by decide, by decide⟩

end SharpMem

namespace SharpMem

/-! ## Bit-level facts about the mask tables -/

theorem set_testBit_self (i : Nat) (hi : i < 8) : (set i).testBit i = true := by
  interval_cases i <;> decide

theorem clr_testBit_self (i : Nat) (hi : i < 8) : (clr i).testBit i = false := by
  interval_cases i <;> decide

theorem mask_AA_testBit (i : Nat) (hi : i < 8) :
    (0xAA : Nat).testBit i = decide (i % 2 = 1) := by
  interval_cases i <;> decide

theorem mask_55_testBit (i : Nat) (hi : i < 8) :
    (0x55 : Nat).testBit i = decide (i % 2 = 0) := by
  interval_cases i <;> decide

/-! ## Pointwise behaviour of the vertical-run loops -/

theorem vlineOrLoop_cases (step m : Nat) :
    ∀ (h i0 : Nat) (buf : Buf) (j : Nat),
      vlineOrLoop step m h i0 buf j = buf j ∨ vlineOrLoop step m h i0 buf j = buf j ||| m := by
  intro h
  induction h with
  | zero => intro i0 buf j; exact Or.inl rfl
  | succ h ih =>
    intro i0 buf j
    rw [vlineOrLoop]
    rcases ih (i0 + step) (orAt buf i0 m) j with hc | hc <;> rw [hc] <;>
      simp only [orAt, bufUpd_apply] <;> by_cases hj : j = i0
    · subst hj; exact Or.inr (by rw [if_pos rfl])
    · rw [if_neg hj]; exact Or.inl rfl
    · subst hj; rw [if_pos rfl, Nat.or_assoc, Nat.or_self]; exact Or.inr rfl
    · rw [if_neg hj]; exact Or.inr rfl

theorem vlineOrLoop_hit (step m : Nat) :
    ∀ (h t i0 : Nat) (buf : Buf), t < h →
      vlineOrLoop step m h i0 buf (i0 + t * step) = buf (i0 + t * step) ||| m := by
  intro h
  induction h with
  | zero => intro t i0 buf ht; omega
  | succ h ih =>
    intro t i0 buf ht
    rw [vlineOrLoop]
    cases t with
    | zero =>
      simp only [Nat.zero_mul, Nat.add_zero]
      rcases vlineOrLoop_cases step m h (i0 + step) (orAt buf i0 m) i0 with hc | hc <;>
          rw [hc, orAt, bufUpd_apply, if_pos rfl]
      rw [Nat.or_assoc, Nat.or_self]
    | succ t =>
      have e1 : i0 + (t + 1) * step = (i0 + step) + t * step := by ring
      rw [e1, ih t (i0 + step) (orAt buf i0 m) (by omega), orAt, bufUpd_apply]
      by_cases hj : (i0 + step) + t * step = i0
      · rw [if_pos hj, Nat.or_assoc, Nat.or_self, hj]
      · rw [if_neg hj]

theorem vlineAndLoop_cases (step m : Nat) :
    ∀ (h i0 : Nat) (buf : Buf) (j : Nat),
      vlineAndLoop step m h i0 buf j = buf j ∨ vlineAndLoop step m h i0 buf j = buf j &&& m := by
  intro h
  induction h with
  | zero => intro i0 buf j; exact Or.inl rfl
  | succ h ih =>
    intro i0 buf j
    rw [vlineAndLoop]
    rcases ih (i0 + step) (andAt buf i0 m) j with hc | hc <;> rw [hc] <;>
      simp only [andAt, bufUpd_apply] <;> by_cases hj : j = i0
    · subst hj; exact Or.inr (by rw [if_pos rfl])
    · rw [if_neg hj]; exact Or.inl rfl
    · subst hj; rw [if_pos rfl, Nat.and_assoc, Nat.and_self]; exact Or.inr rfl
    · rw [if_neg hj]; exact Or.inr rfl

theorem vlineAndLoop_hit (step m : Nat) :
    ∀ (h t i0 : Nat) (buf : Buf), t < h →
      vlineAndLoop step m h i0 buf (i0 + t * step) = buf (i0 + t * step) &&& m := by
  intro h
  induction h with
  | zero => intro t i0 buf ht; omega
  | succ h ih =>
    intro t i0 buf ht
    rw [vlineAndLoop]
    cases t with
    | zero =>
      simp only [Nat.zero_mul, Nat.add_zero]
      rcases vlineAndLoop_cases step m h (i0 + step) (andAt buf i0 m) i0 with hc | hc <;>
          rw [hc, andAt, bufUpd_apply, if_pos rfl]
      rw [Nat.and_assoc, Nat.and_self]
    | succ t =>
      have e1 : i0 + (t + 1) * step = (i0 + step) + t * step := by ring
      rw [e1, ih t (i0 + step) (andAt buf i0 m) (by omega), andAt, bufUpd_apply]
      by_cases hj : (i0 + step) + t * step = i0
      · rw [if_pos hj, Nat.and_assoc, Nat.and_self, hj]
      · rw [if_neg hj]

/-- The byte index of raw pixel (x, y + i) is `i` row strides after the
byte of raw pixel (x, y). -/
theorem rawByteIndex_shift (W x y i : Nat) :
    x / 8 + (y + i) * rowBytes W = (x / 8 + y * rowBytes W) + i * rowBytes W := by
  ring

/-! ## Claim C9 -/

/-- C9: in `drawFastRawVLine` every color selector above 0 other than
GRAY = 2 takes exactly the WHITE path (and paints every run bit white);
GRAY masks the column bit with 0xAA when the starting raw y is even and
with 0x55 when it is odd, so the run bit at every row becomes the old bit
OR (x and y have opposite parity); no color above 0 ever clears a bit, and
color 0 clears every run bit. -/
theorem c9_raw_vline_colors :
    (∀ (W x y h color : Nat) (buf : Buf), 0 < color → color ≠ 2 →
      drawFastRawVLine W x y h color buf = drawFastRawVLine W x y h 1 buf)
    ∧ (∀ (W x y h color : Nat) (buf : Buf) (i : Nat), 0 < color → color ≠ 2 → i < h →
      rawTestBit W (drawFastRawVLine W x y h color buf) x (y + i) = true)
    ∧ (∀ (W x y h : Nat) (buf : Buf),
      drawFastRawVLine W x y h 2 buf =
        vlineOrLoop (rowBytes W) (set (x % 8) &&& (if y % 2 = 0 then 0xAA else 0x55)) h
          (x / 8 + y * rowBytes W) buf)
    ∧ (∀ (W x y h : Nat) (buf : Buf) (i : Nat), i < h →
      rawTestBit W (drawFastRawVLine W x y h 2 buf) x (y + i) =
        (rawTestBit W buf x (y + i) || decide (x % 2 ≠ y % 2)))
    ∧ (∀ (W x y h color : Nat) (buf : Buf) (j k : Nat), 0 < color →
      (buf j).testBit k = true → ((drawFastRawVLine W x y h color buf) j).testBit k = true)
    ∧ (∀ (W x y h : Nat) (buf : Buf) (i : Nat), i < h →
      rawTestBit W (drawFastRawVLine W x y h 0 buf) x (y + i) = false) := by
  have hx8 : ∀ x : Nat, x % 8 < 8 := fun x => Nat.mod_lt _ (by norm_num)
  have hgray : ∀ (W x y h : Nat) (buf : Buf),
      drawFastRawVLine W x y h 2 buf =
        vlineOrLoop (rowBytes W) (set (x % 8) &&& (if y % 2 = 0 then 0xAA else 0x55)) h
          (x / 8 + y * rowBytes W) buf := by
    intro W x y h buf
    by_cases hy : y % 2 = 0 <;>
      simp only [drawFastRawVLine, if_pos (by norm_num : (0:Nat) < 2),
        if_pos (rfl : (2:Nat) = 2), hy, if_pos, if_neg, reduceIte]
  have hwhite : ∀ (W x y h color : Nat) (buf : Buf), 0 < color → color ≠ 2 →
      drawFastRawVLine W x y h color buf =
        vlineOrLoop (rowBytes W) (set (x % 8)) h (x / 8 + y * rowBytes W) buf := by
    intro W x y h color buf hc hc2
    simp only [drawFastRawVLine, if_pos hc, if_neg hc2]
  refine ⟨?_, ?_, hgray, ?_, ?_, ?_⟩
  · intro W x y h color buf hc hc2
    rw [hwhite W x y h color buf hc hc2,
      hwhite W x y h 1 buf (by norm_num) (by norm_num)]
  · intro W x y h color buf i hc hc2 hi
    rw [hwhite W x y h color buf hc hc2]
    unfold rawTestBit
    rw [rawByteIndex_shift, vlineOrLoop_hit _ _ h i _ buf hi, Nat.testBit_or,
      set_testBit_self _ (hx8 x), Bool.or_true]
  · intro W x y h buf i hi
    rw [hgray]
    unfold rawTestBit
    rw [rawByteIndex_shift, vlineOrLoop_hit _ _ h i _ buf hi, Nat.testBit_or]
    have hm : (set (x % 8) &&& (if y % 2 = 0 then 0xAA else 0x55)).testBit (x % 8) =
        decide (x % 2 ≠ y % 2) := by
      rw [Nat.testBit_and, set_testBit_self _ (hx8 x), Bool.true_and]
      have hxm : x % 8 % 2 = x % 2 := Nat.mod_mod_of_dvd x (by norm_num)
      by_cases hy : y % 2 = 0
      · rw [if_pos hy, mask_AA_testBit _ (hx8 x), hxm, decide_eq_decide]
        omega
      · rw [if_neg hy, mask_55_testBit _ (hx8 x), hxm, decide_eq_decide]
        omega
    rw [hm]
  · intro W x y h color buf j k hc hb
    by_cases hc2 : color = 2
    · subst hc2
      rw [hgray]
      rcases vlineOrLoop_cases (rowBytes W) _ h (x / 8 + y * rowBytes W) buf j with hv | hv <;>
        rw [hv]
      · exact hb
      · rw [Nat.testBit_or, hb, Bool.true_or]
    · rw [hwhite W x y h color buf hc hc2]
      rcases vlineOrLoop_cases (rowBytes W) _ h (x / 8 + y * rowBytes W) buf j with hv | hv <;>
        rw [hv]
      · exact hb
      · rw [Nat.testBit_or, hb, Bool.true_or]
  · intro W x y h buf i hi
    have hblack : drawFastRawVLine W x y h 0 buf =
        vlineAndLoop (rowBytes W) (clr (x % 8)) h (x / 8 + y * rowBytes W) buf := by
      simp only [drawFastRawVLine, if_neg (by norm_num : ¬(0:Nat) < 0)]
    rw [hblack]
    unfold rawTestBit
    rw [rawByteIndex_shift, vlineAndLoop_hit _ _ h i _ buf hi, Nat.testBit_and,
      clr_testBit_self _ (hx8 x), Bool.and_false]

/-- Witness for C9 at concrete inputs (column x = 3, start row y = 0,
height 2, on an 8 wide panel). -/
theorem c9_raw_vline_colors_witness :
    drawFastRawVLine 8 3 0 2 5 zeroBuf = drawFastRawVLine 8 3 0 2 1 zeroBuf
    ∧ rawTestBit 8 (drawFastRawVLine 8 3 0 2 5 zeroBuf) 3 (0 + 1) = true
    ∧ rawTestBit 8 (drawFastRawVLine 8 3 0 2 2 zeroBuf) 3 (0 + 1) =
        (rawTestBit 8 zeroBuf 3 (0 + 1) || decide (3 % 2 ≠ 0 % 2))
    ∧ rawTestBit 8 (drawFastRawVLine 8 3 0 2 0 (fun _ => 255)) 3 (0 + 1) = false :=
  ⟨c9_raw_vline_colors.1 8 3 0 2 5 zeroBuf (by decide) (by decide),
   c9_raw_vline_colors.2.1 8 3 0 2 5 zeroBuf 1 (by decide) (by decide) (by decide),
   c9_raw_vline_colors.2.2.2.1 8 3 0 2 zeroBuf 1 (by decide),
   c9_raw_vline_colors.2.2.2.2.2 8 3 0 2 (fun _ => 255) 1 (by decide)⟩

end SharpMem

namespace SharpMem

/-! ## Byte and mask infrastructure for claim C2 -/

theorem set_lt_256 (i : Nat) : set i < 256 := by
  match i with
  | 0 | 1 | 2 | 3 | 4 | 5 | 6 | 7 => decide
  | n + 8 =>
    show [1, 2, 4, 8, 16, 32, 64, 128].getD (n + 8) 0 < 256
    rw [List.getD_eq_default _ _ (by simp)]
    decide

theorem testBit_ge_eight (n k : Nat) (hn : n < 256) (hk : 8 ≤ k) :
    n.testBit k = false := by
  apply Nat.testBit_lt_two_pow
  calc n < 256 := hn
    _ = 2 ^ 8 := by norm_num
    _ ≤ 2 ^ k := Nat.pow_le_pow_right (by norm_num) hk

theorem or_255_eq (n : Nat) (h : n < 256) : n ||| 255 = 255 := by
  apply Nat.eq_of_testBit_eq
  intro k
  rw [Nat.testBit_or]
  by_cases hk : k < 8
  · have h255 : (255 : Nat).testBit k = true := by interval_cases k <;> decide
    rw [h255, Bool.or_true]
  · rw [testBit_ge_eight n k h (by omega),
      testBit_ge_eight 255 k (by norm_num) (by omega), Bool.or_false]

theorem and_255_eq (n : Nat) (h : n < 256) : n &&& 255 = n := by
  apply Nat.eq_of_testBit_eq
  intro k
  rw [Nat.testBit_and]
  by_cases hk : k < 8
  · have h255 : (255 : Nat).testBit k = true := by interval_cases k <;> decide
    rw [h255, Bool.and_true]
  · rw [testBit_ge_eight n k h (by omega),
      testBit_ge_eight 255 k (by norm_num) (by omega), Bool.false_and]

theorem maskRange_lt_256 : ∀ (k i : Nat), maskRange i k < 256 := by
  intro k
  induction k with
  | zero => intro i; rw [maskRange]; norm_num
  | succ k ih =>
    intro i
    rw [maskRange]
    exact Nat.or_lt_two_pow (n := 8) (set_lt_256 i) (ih (i + 1))

theorem orAt_apply (buf : Buf) (i m j : Nat) :
    orAt buf i m j = if j = i then buf i ||| m else buf j := rfl

theorem andAt_apply (buf : Buf) (i m j : Nat) :
    andAt buf i m j = if j = i then buf i &&& m else buf j := rfl

theorem orAt_bufLE (buf : Buf) (i m : Nat) (hb : ∀ j, buf j < 256) (hm : m < 256) :
    ∀ j, orAt buf i m j < 256 := by
  intro j
  rw [orAt_apply]
  split
  · exact Nat.or_lt_two_pow (n := 8) (hb i) hm
  · exact hb j

theorem andAt_bufLE (buf : Buf) (i m : Nat) (hb : ∀ j, buf j < 256) :
    ∀ j, andAt buf i m j < 256 := by
  intro j
  rw [andAt_apply]
  split
  · exact Nat.lt_of_le_of_lt (Nat.and_le_left) (hb i)
  · exact hb j

theorem orAt_orAt (buf : Buf) (i m1 m2 : Nat) :
    orAt (orAt buf i m1) i m2 = orAt buf i (m1 ||| m2) := by
  funext j
  simp only [orAt_apply]
  by_cases h : j = i
  · subst h
    simp [Nat.or_assoc]
  · simp [h]

theorem andAt_andAt (buf : Buf) (i m1 m2 : Nat) :
    andAt (andAt buf i m1) i m2 = andAt buf i (m1 &&& m2) := by
  funext j
  simp only [andAt_apply]
  by_cases h : j = i
  · subst h
    simp [Nat.and_assoc]
  · simp [h]

theorem orAt_comm (buf : Buf) (i m i' m' : Nat) :
    orAt (orAt buf i m) i' m' = orAt (orAt buf i' m') i m := by
  by_cases hii : i = i'
  · subst hii
    rw [orAt_orAt, orAt_orAt, Nat.or_comm m m']
  · have hii' : ¬i' = i := fun h => hii h.symm
    funext j
    simp only [orAt_apply]
    by_cases h1 : j = i
    · subst h1
      simp [hii, hii']
    · by_cases h2 : j = i'
      · subst h2
        simp [hii, hii']
      · simp [h1, h2]

theorem andAt_comm (buf : Buf) (i m i' m' : Nat) :
    andAt (andAt buf i m) i' m' = andAt (andAt buf i' m') i m := by
  by_cases hii : i = i'
  · subst hii
    rw [andAt_andAt, andAt_andAt, Nat.and_comm m m']
  · have hii' : ¬i' = i := fun h => hii h.symm
    funext j
    simp only [andAt_apply]
    by_cases h1 : j = i
    · subst h1
      simp [hii, hii']
    · by_cases h2 : j = i'
      · subst h2
        simp [hii, hii']
      · simp [h1, h2]

theorem orAt_zero (buf : Buf) (i : Nat) : orAt buf i 0 = buf := by
  rw [orAt, Nat.or_zero, bufUpd_self]

theorem andAt_255 (buf : Buf) (i : Nat) (hb : ∀ j, buf j < 256) : andAt buf i 255 = buf := by
  rw [andAt, and_255_eq _ (hb i), bufUpd_self]

theorem startMaskAux_spec :
    ∀ (f i r acc : Nat), startMaskAux f i r acc = (acc ||| maskRange i (min f r), r - f) := by
  intro f
  induction f with
  | zero =>
    intro i r acc
    rw [startMaskAux]
    simp only [Nat.zero_min, maskRange, Nat.or_zero, Nat.sub_zero]
  | succ f ih =>
    intro i r acc
    rw [startMaskAux]
    by_cases hr : 0 < r
    · rw [if_pos hr, ih]
      have hmin : min (f + 1) r = min f (r - 1) + 1 := by omega
      rw [hmin, maskRange, ← Nat.or_assoc]
      have hsub : r - 1 - f = r - (f + 1) := by omega
      rw [hsub]
    · rw [if_neg hr]
      have hr0 : r = 0 := by omega
      subst hr0
      simp only [Nat.min_zero, maskRange, Nat.or_zero, Nat.zero_sub]

theorem maskRange_succ_right : ∀ (k i : Nat), maskRange i (k + 1) = maskRange i k ||| set (i + k) := by
  intro k
  induction k with
  | zero =>
    intro i
    simp only [maskRange, Nat.or_zero, Nat.zero_or, Nat.add_zero]
  | succ k ih =>
    intro i
    rw [maskRange, ih (i + 1), maskRange, Nat.or_assoc]
    have : i + 1 + k = i + (k + 1) := by omega
    rw [this]

theorem clr_lt_256 (i : Nat) : clr i < 256 := by
  match i with
  | 0 | 1 | 2 | 3 | 4 | 5 | 6 | 7 => decide
  | n + 8 =>
    show [254, 253, 251, 247, 239, 223, 191, 127].getD (n + 8) 0 < 256
    rw [List.getD_eq_default _ _ (by simp)]
    decide

theorem clrRange_succ_right : ∀ (k i : Nat), clrRange i (k + 1) = clrRange i k &&& clr (i + k) := by
  intro k
  induction k with
  | zero =>
    intro i
    show clr i &&& clrRange (i + 1) 0 = clrRange i 0 &&& clr (i + 0)
    show clr i &&& 255 = 255 &&& clr (i + 0)
    rw [and_255_eq _ (clr_lt_256 i), Nat.add_zero, Nat.and_comm, and_255_eq _ (clr_lt_256 i)]
  | succ k ih =>
    intro i
    rw [clrRange, ih (i + 1), clrRange, Nat.and_assoc]
    have : i + 1 + k = i + (k + 1) := by omega
    rw [this]

theorem lastByteMask_eq : ∀ n, lastByteMask n = maskRange 0 n := by
  intro n
  induction n with
  | zero => rfl
  | succ n ih =>
    rw [lastByteMask, ih, maskRange_succ_right, Nat.zero_add]

theorem clrRange_eq (i k : Nat) (hi : i < 8) (hik : i + k ≤ 8) :
    255 ^^^ maskRange i k = clrRange i k := by
  have hk8 : k ≤ 8 := by omega
  interval_cases i <;> interval_cases k <;> first | decide | omega

end SharpMem

namespace SharpMem

/-! ## White-run decomposition of the fast horizontal line -/

theorem bitRunOr_append (W y : Nat) :
    ∀ (a b x : Nat) (buf : Buf),
      bitRunOr W y (a + b) x buf = bitRunOr W y b (x + a) (bitRunOr W y a x buf) := by
  intro a
  induction a with
  | zero =>
    intro b x buf
    rw [Nat.zero_add, Nat.add_zero]
    rfl
  | succ a ih =>
    intro b x buf
    have e1 : a + 1 + b = (a + b) + 1 := by omega
    conv_lhs => rw [e1, bitRunOr]
    conv_rhs => rw [bitRunOr]
    rw [ih b (x + 1)]
    have e2 : x + 1 + a = x + (a + 1) := by omega
    rw [e2]

theorem bitRunOr_orAt (W y : Nat) :
    ∀ (n x i m : Nat) (buf : Buf),
      bitRunOr W y n x (orAt buf i m) = orAt (bitRunOr W y n x buf) i m := by
  intro n
  induction n with
  | zero => intro x i m buf; rfl
  | succ n ih =>
    intro x i m buf
    rw [bitRunOr, bitRunOr, orAt_comm, ih]

theorem bitRunOr_snoc (W y : Nat) (n x : Nat) (buf : Buf) :
    bitRunOr W y (n + 1) x buf =
      orAt (bitRunOr W y n x buf) ((x + n) / 8 + y * rowBytes W) (set ((x + n) % 8)) := by
  rw [bitRunOr_append W y n 1 x buf]
  rfl

theorem bitRunOr_byte (W y : Nat) :
    ∀ (k x : Nat) (buf : Buf), x % 8 + k ≤ 8 →
      bitRunOr W y k x buf = orAt buf (x / 8 + y * rowBytes W) (maskRange (x % 8) k) := by
  intro k
  induction k with
  | zero =>
    intro x buf _
    rw [show maskRange (x % 8) 0 = 0 from rfl, orAt_zero]
    rfl
  | succ k ih =>
    intro x buf hk
    by_cases hk0 : k = 0
    · subst hk0
      have hm : maskRange (x % 8) 1 = set (x % 8) := by
        show set (x % 8) ||| maskRange (x % 8 + 1) 0 = set (x % 8)
        exact Nat.or_zero _
      rw [hm]
      rfl
    · have hdiv : (x + 1) / 8 = x / 8 := by omega
      have hmod : (x + 1) % 8 = x % 8 + 1 := by omega
      rw [bitRunOr, ih (x + 1) _ (by omega), hdiv, hmod, orAt_orAt]
      rfl

theorem bitRunOr_bufLE (W y : Nat) :
    ∀ (n x : Nat) (buf : Buf), (∀ j, buf j < 256) → ∀ j, bitRunOr W y n x buf j < 256 := by
  intro n
  induction n with
  | zero => intro x buf hb j; exact hb j
  | succ n ih =>
    intro x buf hb j
    rw [bitRunOr]
    exact ih (x + 1) _ (orAt_bufLE _ _ _ hb (set_lt_256 _)) j

theorem whiteAligned (W y : Nat) :
    ∀ (n s x p : Nat) (buf : Buf), s < 8 → x % 8 = 0 → p = x / 8 + y * rowBytes W →
      (∀ j, buf j < 256) →
      (if 0 < s then
        bufUpd (memsetBytes 255 n p buf) (p + n)
          ((memsetBytes 255 n p buf) (p + n) ||| lastByteMask s)
       else memsetBytes 255 n p buf)
      = bitRunOr W y (8 * n + s) x buf := by
  intro n
  induction n with
  | zero =>
    intro s x p buf hs hx hp hb
    have hms : memsetBytes 255 0 p buf = buf := rfl
    rw [hms, show 8 * 0 + s = s from by omega]
    by_cases h0 : 0 < s
    · rw [if_pos h0, Nat.add_zero, hp]
      have hw : bufUpd buf (x / 8 + y * rowBytes W)
          (buf (x / 8 + y * rowBytes W) ||| lastByteMask s) =
          orAt buf (x / 8 + y * rowBytes W) (lastByteMask s) := rfl
      rw [hw, lastByteMask_eq, bitRunOr_byte W y s x buf (by omega), hx]
    · rw [if_neg h0]
      have hs0 : s = 0 := by omega
      subst hs0
      rfl
  | succ n ih =>
    intro s x p buf hs hx hp hb
    have hstep : memsetBytes 255 (n + 1) p buf = memsetBytes 255 n (p + 1) (bufUpd buf p 255) := rfl
    have hpn : p + (n + 1) = (p + 1) + n := by omega
    rw [hstep, hpn]
    have hx8 : (x + 8) % 8 = 0 := by omega
    have hdiv8 : (x + 8) / 8 = x / 8 + 1 := by omega
    have hp8 : p + 1 = (x + 8) / 8 + y * rowBytes W := by rw [hdiv8, hp]; ring
    have hb' : ∀ j, bufUpd buf p 255 j < 256 := by
      intro j
      rw [bufUpd_apply]
      split
      · norm_num
      · exact hb j
    rw [ih s (x + 8) (p + 1) (bufUpd buf p 255) hs hx8 hp8 hb']
    have hsplit : 8 * (n + 1) + s = 8 + (8 * n + s) := by omega
    rw [hsplit, bitRunOr_append W y 8 (8 * n + s) x buf]
    rw [bitRunOr_byte W y 8 x buf (by omega), hx,
      (by decide : maskRange 0 8 = 255), ← hp, orAt, or_255_eq _ (hb p)]

theorem drawFastRawHLine_white (W : Nat) :
    ∀ (x y w : Nat) (buf : Buf), (∀ j, buf j < 256) →
      drawFastRawHLine W x y w 1 buf = bitRunOr W y w x buf := by
  intro x y w buf hb
  by_cases hr : 0 < x % 8
  case neg =>
    have hx0 : x % 8 = 0 := by omega
    simp only [drawFastRawHLine, if_neg hr]
    by_cases hw : 0 < w
    · rw [if_pos hw]
      rw [show wholeByteColor 1 y = 255 from rfl]
      rw [show ∀ b m, maskedColorWrite 1 y m b = b ||| m from fun _ _ => rfl]
      rw [whiteAligned W y (w / 8) (w % 8) x (x / 8 + y * rowBytes W) buf
        (Nat.mod_lt _ (by norm_num)) hx0 rfl hb, Nat.div_add_mod]
    · rw [if_neg hw]
      have hw0 : w = 0 := by omega
      subst hw0
      rfl
  case pos =>
    simp only [drawFastRawHLine, if_pos hr, startMaskAux_spec, Nat.zero_or]
    rw [show ∀ b m, maskedColorWrite 1 y m b = b ||| m from fun _ _ => rfl]
    by_cases hrem : 0 < w - (8 - x % 8)
    · rw [if_pos hrem]
      have hk : min (8 - x % 8) w = 8 - x % 8 := by omega
      rw [hk]
      rw [show wholeByteColor 1 y = 255 from rfl]
      rw [show ∀ b m, maskedColorWrite 1 y m b = b ||| m from fun _ _ => rfl]
      have hstart : bufUpd buf (x / 8 + y * rowBytes W)
          (buf (x / 8 + y * rowBytes W) ||| maskRange (x % 8) (8 - x % 8)) =
          bitRunOr W y (8 - x % 8) x buf := by
        rw [bitRunOr_byte W y (8 - x % 8) x buf (by omega)]
        rfl
      rw [hstart]
      have hx8 : (x + (8 - x % 8)) % 8 = 0 := by omega
      have hdiv8 : (x + (8 - x % 8)) / 8 = x / 8 + 1 := by omega
      have hp8 : x / 8 + y * rowBytes W + 1 = (x + (8 - x % 8)) / 8 + y * rowBytes W := by
        rw [hdiv8]; ring
      have hb1 : ∀ j, bitRunOr W y (8 - x % 8) x buf j < 256 :=
        bitRunOr_bufLE W y (8 - x % 8) x buf hb
      rw [hp8, whiteAligned W y ((w - (8 - x % 8)) / 8) ((w - (8 - x % 8)) % 8)
        (x + (8 - x % 8)) ((x + (8 - x % 8)) / 8 + y * rowBytes W) _
        (Nat.mod_lt _ (by norm_num)) hx8 rfl hb1, Nat.div_add_mod]
      rw [show w = (8 - x % 8) + (w - (8 - x % 8)) from by omega,
        bitRunOr_append W y (8 - x % 8) (w - (8 - x % 8)) x buf]
      rw [show (8 - x % 8) + (w - (8 - x % 8)) - (8 - x % 8) = w - (8 - x % 8) from by omega]
    · rw [if_neg hrem]
      have hk : min (8 - x % 8) w = w := by omega
      rw [hk, bitRunOr_byte W y w x buf (by omega)]
      rfl

end SharpMem

namespace SharpMem

/-! ## Black-run decomposition of the fast horizontal line -/

theorem bitRunAnd_append (W y : Nat) :
    ∀ (a b x : Nat) (buf : Buf),
      bitRunAnd W y (a + b) x buf = bitRunAnd W y b (x + a) (bitRunAnd W y a x buf) := by
  intro a
  induction a with
  | zero =>
    intro b x buf
    rw [Nat.zero_add, Nat.add_zero]
    rfl
  | succ a ih =>
    intro b x buf
    have e1 : a + 1 + b = (a + b) + 1 := by omega
    conv_lhs => rw [e1, bitRunAnd]
    conv_rhs => rw [bitRunAnd]
    rw [ih b (x + 1)]
    have e2 : x + 1 + a = x + (a + 1) := by omega
    rw [e2]

theorem bitRunAnd_andAt (W y : Nat) :
    ∀ (n x i m : Nat) (buf : Buf),
      bitRunAnd W y n x (andAt buf i m) = andAt (bitRunAnd W y n x buf) i m := by
  intro n
  induction n with
  | zero => intro x i m buf; rfl
  | succ n ih =>
    intro x i m buf
    rw [bitRunAnd, bitRunAnd, andAt_comm, ih]

theorem bitRunAnd_snoc (W y : Nat) (n x : Nat) (buf : Buf) :
    bitRunAnd W y (n + 1) x buf =
      andAt (bitRunAnd W y n x buf) ((x + n) / 8 + y * rowBytes W) (clr ((x + n) % 8)) := by
  rw [bitRunAnd_append W y n 1 x buf]
  rfl

theorem bitRunAnd_byte (W y : Nat) :
    ∀ (k x : Nat) (buf : Buf), x % 8 + k ≤ 8 → (∀ j, buf j < 256) →
      bitRunAnd W y k x buf = andAt buf (x / 8 + y * rowBytes W) (clrRange (x % 8) k) := by
  intro k
  induction k with
  | zero =>
    intro x buf _ hb
    rw [show clrRange (x % 8) 0 = 255 from rfl, andAt_255 _ _ hb]
    rfl
  | succ k ih =>
    intro x buf hk hb
    by_cases hk0 : k = 0
    · subst hk0
      have hm : clrRange (x % 8) 1 = clr (x % 8) := by
        show clr (x % 8) &&& clrRange (x % 8 + 1) 0 = clr (x % 8)
        exact and_255_eq _ (clr_lt_256 _)
      rw [hm]
      rfl
    · have hdiv : (x + 1) / 8 = x / 8 := by omega
      have hmod : (x + 1) % 8 = x % 8 + 1 := by omega
      rw [bitRunAnd, ih (x + 1) _ (by omega) (andAt_bufLE _ _ _ hb), hdiv, hmod, andAt_andAt]
      rfl

theorem bitRunAnd_bufLE (W y : Nat) :
    ∀ (n x : Nat) (buf : Buf), (∀ j, buf j < 256) → ∀ j, bitRunAnd W y n x buf j < 256 := by
  intro n
  induction n with
  | zero => intro x buf hb j; exact hb j
  | succ n ih =>
    intro x buf hb j
    rw [bitRunAnd]
    exact ih (x + 1) _ (andAt_bufLE _ _ _ hb) j

theorem blackAligned (W y : Nat) :
    ∀ (n s x p : Nat) (buf : Buf), s < 8 → x % 8 = 0 → p = x / 8 + y * rowBytes W →
      (∀ j, buf j < 256) →
      (if 0 < s then
        bufUpd (memsetBytes 0 n p buf) (p + n)
          ((memsetBytes 0 n p buf) (p + n) &&& (255 ^^^ lastByteMask s))
       else memsetBytes 0 n p buf)
      = bitRunAnd W y (8 * n + s) x buf := by
  intro n
  induction n with
  | zero =>
    intro s x p buf hs hx hp hb
    have hms : memsetBytes 0 0 p buf = buf := rfl
    rw [hms, show 8 * 0 + s = s from by omega]
    by_cases h0 : 0 < s
    · rw [if_pos h0, Nat.add_zero, hp]
      rw [lastByteMask_eq, clrRange_eq 0 s (by norm_num) (by omega)]
      have hw : bufUpd buf (x / 8 + y * rowBytes W)
          (buf (x / 8 + y * rowBytes W) &&& clrRange 0 s) =
          andAt buf (x / 8 + y * rowBytes W) (clrRange 0 s) := rfl
      rw [hw, bitRunAnd_byte W y s x buf (by omega) hb, hx]
    · rw [if_neg h0]
      have hs0 : s = 0 := by omega
      subst hs0
      rfl
  | succ n ih =>
    intro s x p buf hs hx hp hb
    have hstep : memsetBytes 0 (n + 1) p buf = memsetBytes 0 n (p + 1) (bufUpd buf p 0) := rfl
    have hpn : p + (n + 1) = (p + 1) + n := by omega
    rw [hstep, hpn]
    have hx8 : (x + 8) % 8 = 0 := by omega
    have hdiv8 : (x + 8) / 8 = x / 8 + 1 := by omega
    have hp8 : p + 1 = (x + 8) / 8 + y * rowBytes W := by rw [hdiv8, hp]; ring
    have hb' : ∀ j, bufUpd buf p 0 j < 256 := by
      intro j
      rw [bufUpd_apply]
      split
      · norm_num
      · exact hb j
    rw [ih s (x + 8) (p + 1) (bufUpd buf p 0) hs hx8 hp8 hb']
    have hsplit : 8 * (n + 1) + s = 8 + (8 * n + s) := by omega
    rw [hsplit, bitRunAnd_append W y 8 (8 * n + s) x buf]
    rw [bitRunAnd_byte W y 8 x buf (by omega) hb, hx,
      (by decide : clrRange 0 8 = 0), ← hp, andAt, Nat.and_zero]

theorem drawFastRawHLine_black (W : Nat) :
    ∀ (x y w : Nat) (buf : Buf), (∀ j, buf j < 256) →
      drawFastRawHLine W x y w 0 buf = bitRunAnd W y w x buf := by
  intro x y w buf hb
  by_cases hr : 0 < x % 8
  case neg =>
    have hx0 : x % 8 = 0 := by omega
    simp only [drawFastRawHLine, if_neg hr]
    by_cases hw : 0 < w
    · rw [if_pos hw]
      rw [show wholeByteColor 0 y = 0 from rfl]
      rw [show ∀ b m, maskedColorWrite 0 y m b = b &&& (255 ^^^ m) from fun _ _ => rfl]
      rw [blackAligned W y (w / 8) (w % 8) x (x / 8 + y * rowBytes W) buf
        (Nat.mod_lt _ (by norm_num)) hx0 rfl hb, Nat.div_add_mod]
    · rw [if_neg hw]
      have hw0 : w = 0 := by omega
      subst hw0
      rfl
  case pos =>
    simp only [drawFastRawHLine, if_pos hr, startMaskAux_spec, Nat.zero_or]
    rw [show ∀ b m, maskedColorWrite 0 y m b = b &&& (255 ^^^ m) from fun _ _ => rfl]
    by_cases hrem : 0 < w - (8 - x % 8)
    · rw [if_pos hrem]
      have hk : min (8 - x % 8) w = 8 - x % 8 := by omega
      rw [hk]
      rw [show wholeByteColor 0 y = 0 from rfl]
      rw [show ∀ b m, maskedColorWrite 0 y m b = b &&& (255 ^^^ m) from fun _ _ => rfl]
      have hstart : bufUpd buf (x / 8 + y * rowBytes W)
          (buf (x / 8 + y * rowBytes W) &&& (255 ^^^ maskRange (x % 8) (8 - x % 8))) =
          bitRunAnd W y (8 - x % 8) x buf := by
        rw [clrRange_eq (x % 8) (8 - x % 8) (by omega) (by omega),
          bitRunAnd_byte W y (8 - x % 8) x buf (by omega) hb]
        rfl
      rw [hstart]
      have hx8 : (x + (8 - x % 8)) % 8 = 0 := by omega
      have hdiv8 : (x + (8 - x % 8)) / 8 = x / 8 + 1 := by omega
      have hp8 : x / 8 + y * rowBytes W + 1 = (x + (8 - x % 8)) / 8 + y * rowBytes W := by
        rw [hdiv8]; ring
      have hb1 : ∀ j, bitRunAnd W y (8 - x % 8) x buf j < 256 :=
        bitRunAnd_bufLE W y (8 - x % 8) x buf hb
      rw [hp8, blackAligned W y ((w - (8 - x % 8)) / 8) ((w - (8 - x % 8)) % 8)
        (x + (8 - x % 8)) ((x + (8 - x % 8)) / 8 + y * rowBytes W) _
        (Nat.mod_lt _ (by norm_num)) hx8 rfl hb1, Nat.div_add_mod]
      rw [show w = (8 - x % 8) + (w - (8 - x % 8)) from by omega,
        bitRunAnd_append W y (8 - x % 8) (w - (8 - x % 8)) x buf]
      rw [show (8 - x % 8) + (w - (8 - x % 8)) - (8 - x % 8) = w - (8 - x % 8) from by omega]
    · rw [if_neg hrem]
      have hk : min (8 - x % 8) w = w := by omega
      rw [hk, clrRange_eq (x % 8) w (by omega) (by omega),
        bitRunAnd_byte W y w x buf (by omega) hb]
      rfl

end SharpMem

namespace SharpMem

/-! ## Vertical-run structure lemmas -/

theorem vlineOrLoop_orAt (step m : Nat) :
    ∀ (h i0 i m' : Nat) (buf : Buf),
      vlineOrLoop step m h i0 (orAt buf i m') = orAt (vlineOrLoop step m h i0 buf) i m' := by
  intro h
  induction h with
  | zero => intro i0 i m' buf; rfl
  | succ h ih =>
    intro i0 i m' buf
    rw [vlineOrLoop, vlineOrLoop, orAt_comm, ih]

theorem vlineAndLoop_andAt (step m : Nat) :
    ∀ (h i0 i m' : Nat) (buf : Buf),
      vlineAndLoop step m h i0 (andAt buf i m') = andAt (vlineAndLoop step m h i0 buf) i m' := by
  intro h
  induction h with
  | zero => intro i0 i m' buf; rfl
  | succ h ih =>
    intro i0 i m' buf
    rw [vlineAndLoop, vlineAndLoop, andAt_comm, ih]

theorem vlineOrLoop_snoc (step m : Nat) :
    ∀ (h i0 : Nat) (buf : Buf),
      vlineOrLoop step m (h + 1) i0 buf =
        orAt (vlineOrLoop step m h i0 buf) (i0 + h * step) m := by
  intro h
  induction h with
  | zero =>
    intro i0 buf
    rw [Nat.zero_mul, Nat.add_zero]
    rfl
  | succ h ih =>
    intro i0 buf
    rw [vlineOrLoop, ih (i0 + step)]
    conv_rhs => rw [vlineOrLoop]
    have e : i0 + step + h * step = i0 + (h + 1) * step := by ring
    rw [e]

theorem vlineAndLoop_snoc (step m : Nat) :
    ∀ (h i0 : Nat) (buf : Buf),
      vlineAndLoop step m (h + 1) i0 buf =
        andAt (vlineAndLoop step m h i0 buf) (i0 + h * step) m := by
  intro h
  induction h with
  | zero =>
    intro i0 buf
    rw [Nat.zero_mul, Nat.add_zero]
    rfl
  | succ h ih =>
    intro i0 buf
    rw [vlineAndLoop, ih (i0 + step)]
    conv_rhs => rw [vlineAndLoop]
    have e : i0 + step + h * step = i0 + (h + 1) * step := by ring
    rw [e]

theorem drawFastRawVLine_white (W x y h : Nat) (buf : Buf) :
    drawFastRawVLine W x y h 1 buf =
      vlineOrLoop (rowBytes W) (set (x % 8)) h (x / 8 + y * rowBytes W) buf := by
  simp only [drawFastRawVLine, if_pos (by norm_num : (0:Nat) < 1),
    if_neg (by norm_num : ¬(1:Nat) = 2)]

theorem drawFastRawVLine_black (W x y h : Nat) (buf : Buf) :
    drawFastRawVLine W x y h 0 buf =
      vlineAndLoop (rowBytes W) (clr (x % 8)) h (x / 8 + y * rowBytes W) buf := by
  simp only [drawFastRawVLine, if_neg (by norm_num : ¬(0:Nat) < 0)]

/-! ## Pixel-loop clipping lemmas -/

theorem hlinePixelLoop_y_oob (W H rot color : Nat) (y : Int)
    (hy : y < 0 ∨ (logicalH W H rot : Int) ≤ y) :
    ∀ (n : Nat) (x : Int) (buf : Buf), hlinePixelLoop W H rot y color n x buf = buf := by
  intro n
  induction n with
  | zero => intro x buf; rfl
  | succ n ih =>
    intro x buf
    rw [hlinePixelLoop, drawPixel, if_pos (by tauto)]
    exact ih (x + 1) buf

theorem hlinePixelLoop_left_oob (W H rot color : Nat) (y : Int) :
    ∀ (n : Nat) (x : Int) (buf : Buf), x + n ≤ 0 →
      hlinePixelLoop W H rot y color n x buf = buf := by
  intro n
  induction n with
  | zero => intro x buf _; rfl
  | succ n ih =>
    intro x buf hx
    rw [hlinePixelLoop, drawPixel, if_pos (Or.inl (by omega))]
    exact ih (x + 1) buf (by omega)

theorem hlinePixelLoop_right_oob (W H rot color : Nat) (y : Int) :
    ∀ (n : Nat) (x : Int) (buf : Buf), (logicalW W H rot : Int) ≤ x →
      hlinePixelLoop W H rot y color n x buf = buf := by
  intro n
  induction n with
  | zero => intro x buf _; rfl
  | succ n ih =>
    intro x buf hx
    rw [hlinePixelLoop, drawPixel, if_pos (Or.inr (Or.inl hx))]
    exact ih (x + 1) buf (by omega)

theorem hlinePixelLoop_append (W H rot color : Nat) (y : Int) :
    ∀ (a b : Nat) (x : Int) (buf : Buf),
      hlinePixelLoop W H rot y color (a + b) x buf =
        hlinePixelLoop W H rot y color b (x + (a : Int)) (hlinePixelLoop W H rot y color a x buf) := by
  intro a
  induction a with
  | zero =>
    intro b x buf
    rw [Nat.zero_add, show x + ((0 : Nat) : Int) = x from by push_cast; ring]
    rfl
  | succ a ih =>
    intro b x buf
    have e1 : a + 1 + b = (a + b) + 1 := by omega
    conv_lhs => rw [e1, hlinePixelLoop]
    conv_rhs => rw [hlinePixelLoop]
    rw [ih b (x + 1)]
    have e2 : x + 1 + (a : Int) = x + ((a + 1 : Nat) : Int) := by push_cast; ring
    rw [e2]

theorem hlinePixelLoop_clip (W H rot color : Nat) (y : Int) :
    ∀ (n : Nat) (x : Int) (buf : Buf),
      hlinePixelLoop W H rot y color n x buf =
        hlinePixelLoop W H rot y color
          ((min (x + (n : Int)) (logicalW W H rot : Int) - max x 0).toNat) (max x 0) buf := by
  intro n x buf
  by_cases hxw : (logicalW W H rot : Int) ≤ x
  · rw [hlinePixelLoop_right_oob W H rot color y n x buf hxw,
      show (min (x + (n : Int)) (logicalW W H rot : Int) - max x 0).toNat = 0 from by omega]
    rfl
  · by_cases hL : x + (n : Int) ≤ 0
    · rw [hlinePixelLoop_left_oob W H rot color y n x buf hL,
        show (min (x + (n : Int)) (logicalW W H rot : Int) - max x 0).toNat = 0 from by omega]
      rfl
    · obtain ⟨n', hn'⟩ : ∃ n', n = (-x).toNat + n' := ⟨n - (-x).toNat, by omega⟩
      subst hn'
      rw [hlinePixelLoop_append W H rot color y ((-x).toNat) n' x buf]
      have hfirst : hlinePixelLoop W H rot y color ((-x).toNat) x buf = buf := by
        by_cases hx0 : x < 0
        · exact hlinePixelLoop_left_oob W H rot color y ((-x).toNat) x buf (by omega)
        · rw [show (-x).toNat = 0 from by omega]
          rfl
      rw [hfirst, show x + (((-x).toNat : Nat) : Int) = max x 0 from by omega]
      by_cases hcut : (n' : Int) ≤ (logicalW W H rot : Int) - max x 0
      · rw [show (min (x + (((-x).toNat + n' : Nat) : Int)) (logicalW W H rot : Int) -
            max x 0).toNat = n' from by omega]
      · obtain ⟨r, hr⟩ : ∃ r, n' = ((logicalW W H rot : Int) - max x 0).toNat + r :=
          ⟨n' - ((logicalW W H rot : Int) - max x 0).toNat, by omega⟩
        subst hr
        rw [hlinePixelLoop_append W H rot color y
          (((logicalW W H rot : Int) - max x 0).toNat) r (max x 0) buf]
        rw [hlinePixelLoop_right_oob W H rot color y r _ _ (by omega)]
        rw [show (min (x + (((-x).toNat + ((((logicalW W H rot : Int) - max x 0).toNat) + r) : Nat) : Int))
            (logicalW W H rot : Int) - max x 0).toNat =
            ((logicalW W H rot : Int) - max x 0).toNat from by omega]

end SharpMem

namespace SharpMem

/-! ## In-bounds pixel loops as raw runs -/

theorem drawPixel_white_r0 (W H : Nat) (x y : Nat) (hx : x < W) (hy : y < H) (buf : Buf) :
    drawPixel W H 0 (x : Int) (y : Int) 1 buf =
      orAt buf (x / 8 + y * rowBytes W) (set (x % 8)) := by
  have hW : logicalW W H 0 = W := rfl
  have hH : logicalH W H 0 = H := rfl
  rw [drawPixel, hW, hH, if_neg (by omega)]
  simp only [Int.toNat_natCast]
  rfl

theorem drawPixel_white_r1 (W H : Nat) (x y : Nat) (hx : x < H) (hy : y < W) (buf : Buf) :
    drawPixel W H 1 (x : Int) (y : Int) 1 buf =
      orAt buf ((W - 1 - y) / 8 + x * rowBytes W) (set ((W - 1 - y) % 8)) := by
  have hW : logicalW W H 1 = H := rfl
  have hH : logicalH W H 1 = W := rfl
  rw [drawPixel, hW, hH, if_neg (by omega)]
  simp only [Int.toNat_natCast]
  rfl

theorem drawPixel_white_r2 (W H : Nat) (x y : Nat) (hx : x < W) (hy : y < H) (buf : Buf) :
    drawPixel W H 2 (x : Int) (y : Int) 1 buf =
      orAt buf ((W - 1 - x) / 8 + (H - 1 - y) * rowBytes W) (set ((W - 1 - x) % 8)) := by
  have hW : logicalW W H 2 = W := rfl
  have hH : logicalH W H 2 = H := rfl
  rw [drawPixel, hW, hH, if_neg (by omega)]
  simp only [Int.toNat_natCast]
  rfl

theorem drawPixel_white_r3 (W H : Nat) (x y : Nat) (hx : x < H) (hy : y < W) (buf : Buf) :
    drawPixel W H 3 (x : Int) (y : Int) 1 buf =
      orAt buf (y / 8 + (H - 1 - x) * rowBytes W) (set (y % 8)) := by
  have hW : logicalW W H 3 = H := rfl
  have hH : logicalH W H 3 = W := rfl
  rw [drawPixel, hW, hH, if_neg (by omega)]
  simp only [Int.toNat_natCast]
  rfl

theorem drawPixel_black_r0 (W H : Nat) (x y : Nat) (hx : x < W) (hy : y < H) (buf : Buf) :
    drawPixel W H 0 (x : Int) (y : Int) 0 buf =
      andAt buf (x / 8 + y * rowBytes W) (clr (x % 8)) := by
  have hW : logicalW W H 0 = W := rfl
  have hH : logicalH W H 0 = H := rfl
  rw [drawPixel, hW, hH, if_neg (by omega)]
  simp only [Int.toNat_natCast]
  rfl

theorem drawPixel_black_r1 (W H : Nat) (x y : Nat) (hx : x < H) (hy : y < W) (buf : Buf) :
    drawPixel W H 1 (x : Int) (y : Int) 0 buf =
      andAt buf ((W - 1 - y) / 8 + x * rowBytes W) (clr ((W - 1 - y) % 8)) := by
  have hW : logicalW W H 1 = H := rfl
  have hH : logicalH W H 1 = W := rfl
  rw [drawPixel, hW, hH, if_neg (by omega)]
  simp only [Int.toNat_natCast]
  rfl

theorem drawPixel_black_r2 (W H : Nat) (x y : Nat) (hx : x < W) (hy : y < H) (buf : Buf) :
    drawPixel W H 2 (x : Int) (y : Int) 0 buf =
      andAt buf ((W - 1 - x) / 8 + (H - 1 - y) * rowBytes W) (clr ((W - 1 - x) % 8)) := by
  have hW : logicalW W H 2 = W := rfl
  have hH : logicalH W H 2 = H := rfl
  rw [drawPixel, hW, hH, if_neg (by omega)]
  simp only [Int.toNat_natCast]
  rfl

theorem drawPixel_black_r3 (W H : Nat) (x y : Nat) (hx : x < H) (hy : y < W) (buf : Buf) :
    drawPixel W H 3 (x : Int) (y : Int) 0 buf =
      andAt buf (y / 8 + (H - 1 - x) * rowBytes W) (clr (y % 8)) := by
  have hW : logicalW W H 3 = H := rfl
  have hH : logicalH W H 3 = W := rfl
  rw [drawPixel, hW, hH, if_neg (by omega)]
  simp only [Int.toNat_natCast]
  rfl

theorem pixelMid_r0_white (W H : Nat) :
    ∀ (n x y : Nat) (buf : Buf), x + n ≤ W → y < H →
      hlinePixelLoop W H 0 (y : Int) 1 n (x : Int) buf = bitRunOr W y n x buf := by
  intro n
  induction n with
  | zero => intro x y buf _ _; rfl
  | succ n ih =>
    intro x y buf hx hy
    rw [hlinePixelLoop, drawPixel_white_r0 W H x y (by omega) hy buf,
      show (x : Int) + 1 = ((x + 1 : Nat) : Int) from by push_cast; ring,
      ih (x + 1) y _ (by omega) hy]
    rfl

theorem pixelMid_r1_white (W H : Nat) :
    ∀ (n x y : Nat) (buf : Buf), x + n ≤ H → y < W →
      hlinePixelLoop W H 1 (y : Int) 1 n (x : Int) buf =
        vlineOrLoop (rowBytes W) (set ((W - 1 - y) % 8)) n ((W - 1 - y) / 8 + x * rowBytes W) buf := by
  intro n
  induction n with
  | zero => intro x y buf _ _; rfl
  | succ n ih =>
    intro x y buf hx hy
    rw [hlinePixelLoop, drawPixel_white_r1 W H x y (by omega) hy buf,
      show (x : Int) + 1 = ((x + 1 : Nat) : Int) from by push_cast; ring,
      ih (x + 1) y _ (by omega) hy]
    rw [vlineOrLoop]
    rw [show (W - 1 - y) / 8 + x * rowBytes W + rowBytes W =
      (W - 1 - y) / 8 + (x + 1) * rowBytes W from by ring]

theorem pixelMid_r2_white (W H : Nat) :
    ∀ (n x y : Nat) (buf : Buf), x + n ≤ W → y < H →
      hlinePixelLoop W H 2 (y : Int) 1 n (x : Int) buf =
        bitRunOr W (H - 1 - y) n (W - x - n) buf := by
  intro n
  induction n with
  | zero => intro x y buf _ _; rfl
  | succ n ih =>
    intro x y buf hx hy
    rw [hlinePixelLoop, drawPixel_white_r2 W H x y (by omega) hy buf,
      show (x : Int) + 1 = ((x + 1 : Nat) : Int) from by push_cast; ring,
      ih (x + 1) y _ (by omega) hy, bitRunOr_orAt, bitRunOr_snoc,
      show W - x - (n + 1) + n = W - 1 - x from by omega,
      show W - x - (n + 1) = W - (x + 1) - n from by omega]

theorem pixelMid_r3_white (W H : Nat) :
    ∀ (n x y : Nat) (buf : Buf), x + n ≤ H → y < W →
      hlinePixelLoop W H 3 (y : Int) 1 n (x : Int) buf =
        vlineOrLoop (rowBytes W) (set (y % 8)) n (y / 8 + (H - x - n) * rowBytes W) buf := by
  intro n
  induction n with
  | zero => intro x y buf _ _; rfl
  | succ n ih =>
    intro x y buf hx hy
    rw [hlinePixelLoop, drawPixel_white_r3 W H x y (by omega) hy buf,
      show (x : Int) + 1 = ((x + 1 : Nat) : Int) from by push_cast; ring,
      ih (x + 1) y _ (by omega) hy, vlineOrLoop_orAt, vlineOrLoop_snoc,
      show y / 8 + (H - x - (n + 1)) * rowBytes W + n * rowBytes W =
        y / 8 + (H - 1 - x) * rowBytes W from by
          rw [Nat.add_assoc, ← Nat.add_mul]
          congr 2
          omega,
      show H - x - (n + 1) = H - (x + 1) - n from by omega]

theorem pixelMid_r0_black (W H : Nat) :
    ∀ (n x y : Nat) (buf : Buf), x + n ≤ W → y < H →
      hlinePixelLoop W H 0 (y : Int) 0 n (x : Int) buf = bitRunAnd W y n x buf := by
  intro n
  induction n with
  | zero => intro x y buf _ _; rfl
  | succ n ih =>
    intro x y buf hx hy
    rw [hlinePixelLoop, drawPixel_black_r0 W H x y (by omega) hy buf,
      show (x : Int) + 1 = ((x + 1 : Nat) : Int) from by push_cast; ring,
      ih (x + 1) y _ (by omega) hy]
    rfl

theorem pixelMid_r1_black (W H : Nat) :
    ∀ (n x y : Nat) (buf : Buf), x + n ≤ H → y < W →
      hlinePixelLoop W H 1 (y : Int) 0 n (x : Int) buf =
        vlineAndLoop (rowBytes W) (clr ((W - 1 - y) % 8)) n ((W - 1 - y) / 8 + x * rowBytes W) buf := by
  intro n
  induction n with
  | zero => intro x y buf _ _; rfl
  | succ n ih =>
    intro x y buf hx hy
    rw [hlinePixelLoop, drawPixel_black_r1 W H x y (by omega) hy buf,
      show (x : Int) + 1 = ((x + 1 : Nat) : Int) from by push_cast; ring,
      ih (x + 1) y _ (by omega) hy]
    rw [vlineAndLoop]
    rw [show (W - 1 - y) / 8 + x * rowBytes W + rowBytes W =
      (W - 1 - y) / 8 + (x + 1) * rowBytes W from by ring]

theorem pixelMid_r2_black (W H : Nat) :
    ∀ (n x y : Nat) (buf : Buf), x + n ≤ W → y < H →
      hlinePixelLoop W H 2 (y : Int) 0 n (x : Int) buf =
        bitRunAnd W (H - 1 - y) n (W - x - n) buf := by
  intro n
  induction n with
  | zero => intro x y buf _ _; rfl
  | succ n ih =>
    intro x y buf hx hy
    rw [hlinePixelLoop, drawPixel_black_r2 W H x y (by omega) hy buf,
      show (x : Int) + 1 = ((x + 1 : Nat) : Int) from by push_cast; ring,
      ih (x + 1) y _ (by omega) hy, bitRunAnd_andAt, bitRunAnd_snoc,
      show W - x - (n + 1) + n = W - 1 - x from by omega,
      show W - x - (n + 1) = W - (x + 1) - n from by omega]

theorem pixelMid_r3_black (W H : Nat) :
    ∀ (n x y : Nat) (buf : Buf), x + n ≤ H → y < W →
      hlinePixelLoop W H 3 (y : Int) 0 n (x : Int) buf =
        vlineAndLoop (rowBytes W) (clr (y % 8)) n (y / 8 + (H - x - n) * rowBytes W) buf := by
  intro n
  induction n with
  | zero => intro x y buf _ _; rfl
  | succ n ih =>
    intro x y buf hx hy
    rw [hlinePixelLoop, drawPixel_black_r3 W H x y (by omega) hy buf,
      show (x : Int) + 1 = ((x + 1 : Nat) : Int) from by push_cast; ring,
      ih (x + 1) y _ (by omega) hy, vlineAndLoop_andAt, vlineAndLoop_snoc,
      show y / 8 + (H - x - (n + 1)) * rowBytes W + n * rowBytes W =
        y / 8 + (H - 1 - x) * rowBytes W from by
          rw [Nat.add_assoc, ← Nat.add_mul]
          congr 2
          omega,
      show H - x - (n + 1) = H - (x + 1) - n from by omega]

end SharpMem

namespace SharpMem

/-! ## Bridges: clipped fast raw calls versus in-bounds pixel loops -/

theorem bridge_r0_white (W H : Nat) (y xb wc : Int) (buf : Buf)
    (hb : ∀ j, buf j < 256)
    (hxb : 0 ≤ xb) (hy0 : 0 ≤ y) (hyH : y < (H : Int)) (hwc : 0 ≤ wc)
    (hle : xb + wc ≤ (W : Int)) :
    drawFastRawHLine W xb.toNat y.toNat wc.toNat 1 buf =
      hlinePixelLoop W H 0 y 1 wc.toNat xb buf := by
  conv_rhs => rw [show y = ((y.toNat : Nat) : Int) from (Int.toNat_of_nonneg hy0).symm,
    show xb = ((xb.toNat : Nat) : Int) from (Int.toNat_of_nonneg hxb).symm]
  rw [pixelMid_r0_white W H wc.toNat xb.toNat y.toNat buf (by omega) (by omega)]
  exact drawFastRawHLine_white W xb.toNat y.toNat wc.toNat buf hb

theorem bridge_r1_white (W H : Nat) (y xb wc : Int) (buf : Buf)
    (_hb : ∀ j, buf j < 256)
    (hxb : 0 ≤ xb) (hy0 : 0 ≤ y) (hyH : y < (W : Int)) (hwc : 0 ≤ wc)
    (hle : xb + wc ≤ (H : Int)) :
    drawFastRawVLine W ((W : Int) - 1 - y).toNat xb.toNat wc.toNat 1 buf =
      hlinePixelLoop W H 1 y 1 wc.toNat xb buf := by
  conv_rhs => rw [show y = ((y.toNat : Nat) : Int) from (Int.toNat_of_nonneg hy0).symm,
    show xb = ((xb.toNat : Nat) : Int) from (Int.toNat_of_nonneg hxb).symm]
  rw [pixelMid_r1_white W H wc.toNat xb.toNat y.toNat buf (by omega) (by omega),
    drawFastRawVLine_white, show ((W : Int) - 1 - y).toNat = W - 1 - y.toNat from by omega]

theorem bridge_r2_white (W H : Nat) (y xb wc : Int) (buf : Buf)
    (hb : ∀ j, buf j < 256)
    (hxb : 0 ≤ xb) (hy0 : 0 ≤ y) (hyH : y < (H : Int)) (hwc : 0 ≤ wc)
    (hle : xb + wc ≤ (W : Int)) :
    drawFastRawHLine W ((W : Int) - 1 - xb - (wc - 1)).toNat ((H : Int) - 1 - y).toNat
        wc.toNat 1 buf =
      hlinePixelLoop W H 2 y 1 wc.toNat xb buf := by
  conv_rhs => rw [show y = ((y.toNat : Nat) : Int) from (Int.toNat_of_nonneg hy0).symm,
    show xb = ((xb.toNat : Nat) : Int) from (Int.toNat_of_nonneg hxb).symm]
  rw [pixelMid_r2_white W H wc.toNat xb.toNat y.toNat buf (by omega) (by omega),
    drawFastRawHLine_white W _ _ _ buf hb,
    show ((W : Int) - 1 - xb - (wc - 1)).toNat = W - xb.toNat - wc.toNat from by omega,
    show ((H : Int) - 1 - y).toNat = H - 1 - y.toNat from by omega]

theorem bridge_r3_white (W H : Nat) (y xb wc : Int) (buf : Buf)
    (_hb : ∀ j, buf j < 256)
    (hxb : 0 ≤ xb) (hy0 : 0 ≤ y) (hyH : y < (W : Int)) (hwc : 0 ≤ wc)
    (hle : xb + wc ≤ (H : Int)) :
    drawFastRawVLine W y.toNat ((H : Int) - 1 - xb - (wc - 1)).toNat wc.toNat 1 buf =
      hlinePixelLoop W H 3 y 1 wc.toNat xb buf := by
  conv_rhs => rw [show y = ((y.toNat : Nat) : Int) from (Int.toNat_of_nonneg hy0).symm,
    show xb = ((xb.toNat : Nat) : Int) from (Int.toNat_of_nonneg hxb).symm]
  rw [pixelMid_r3_white W H wc.toNat xb.toNat y.toNat buf (by omega) (by omega),
    drawFastRawVLine_white,
    show ((H : Int) - 1 - xb - (wc - 1)).toNat = H - xb.toNat - wc.toNat from by omega]

theorem bridge_r0_black (W H : Nat) (y xb wc : Int) (buf : Buf)
    (hb : ∀ j, buf j < 256)
    (hxb : 0 ≤ xb) (hy0 : 0 ≤ y) (hyH : y < (H : Int)) (hwc : 0 ≤ wc)
    (hle : xb + wc ≤ (W : Int)) :
    drawFastRawHLine W xb.toNat y.toNat wc.toNat 0 buf =
      hlinePixelLoop W H 0 y 0 wc.toNat xb buf := by
  conv_rhs => rw [show y = ((y.toNat : Nat) : Int) from (Int.toNat_of_nonneg hy0).symm,
    show xb = ((xb.toNat : Nat) : Int) from (Int.toNat_of_nonneg hxb).symm]
  rw [pixelMid_r0_black W H wc.toNat xb.toNat y.toNat buf (by omega) (by omega)]
  exact drawFastRawHLine_black W xb.toNat y.toNat wc.toNat buf hb

theorem bridge_r1_black (W H : Nat) (y xb wc : Int) (buf : Buf)
    (_hb : ∀ j, buf j < 256)
    (hxb : 0 ≤ xb) (hy0 : 0 ≤ y) (hyH : y < (W : Int)) (hwc : 0 ≤ wc)
    (hle : xb + wc ≤ (H : Int)) :
    drawFastRawVLine W ((W : Int) - 1 - y).toNat xb.toNat wc.toNat 0 buf =
      hlinePixelLoop W H 1 y 0 wc.toNat xb buf := by
  conv_rhs => rw [show y = ((y.toNat : Nat) : Int) from (Int.toNat_of_nonneg hy0).symm,
    show xb = ((xb.toNat : Nat) : Int) from (Int.toNat_of_nonneg hxb).symm]
  rw [pixelMid_r1_black W H wc.toNat xb.toNat y.toNat buf (by omega) (by omega),
    drawFastRawVLine_black, show ((W : Int) - 1 - y).toNat = W - 1 - y.toNat from by omega]

theorem bridge_r2_black (W H : Nat) (y xb wc : Int) (buf : Buf)
    (hb : ∀ j, buf j < 256)
    (hxb : 0 ≤ xb) (hy0 : 0 ≤ y) (hyH : y < (H : Int)) (hwc : 0 ≤ wc)
    (hle : xb + wc ≤ (W : Int)) :
    drawFastRawHLine W ((W : Int) - 1 - xb - (wc - 1)).toNat ((H : Int) - 1 - y).toNat
        wc.toNat 0 buf =
      hlinePixelLoop W H 2 y 0 wc.toNat xb buf := by
  conv_rhs => rw [show y = ((y.toNat : Nat) : Int) from (Int.toNat_of_nonneg hy0).symm,
    show xb = ((xb.toNat : Nat) : Int) from (Int.toNat_of_nonneg hxb).symm]
  rw [pixelMid_r2_black W H wc.toNat xb.toNat y.toNat buf (by omega) (by omega),
    drawFastRawHLine_black W _ _ _ buf hb,
    show ((W : Int) - 1 - xb - (wc - 1)).toNat = W - xb.toNat - wc.toNat from by omega,
    show ((H : Int) - 1 - y).toNat = H - 1 - y.toNat from by omega]

theorem bridge_r3_black (W H : Nat) (y xb wc : Int) (buf : Buf)
    (_hb : ∀ j, buf j < 256)
    (hxb : 0 ≤ xb) (hy0 : 0 ≤ y) (hyH : y < (W : Int)) (hwc : 0 ≤ wc)
    (hle : xb + wc ≤ (H : Int)) :
    drawFastRawVLine W y.toNat ((H : Int) - 1 - xb - (wc - 1)).toNat wc.toNat 0 buf =
      hlinePixelLoop W H 3 y 0 wc.toNat xb buf := by
  conv_rhs => rw [show y = ((y.toNat : Nat) : Int) from (Int.toNat_of_nonneg hy0).symm,
    show xb = ((xb.toNat : Nat) : Int) from (Int.toNat_of_nonneg hxb).symm]
  rw [pixelMid_r3_black W H wc.toNat xb.toNat y.toNat buf (by omega) (by omega),
    drawFastRawVLine_black,
    show ((H : Int) - 1 - xb - (wc - 1)).toNat = H - xb.toNat - wc.toNat from by omega]

end SharpMem

namespace SharpMem

/-! ## The main C2 equivalence -/

theorem c2_main (W H rot : Nat) (hrot : rot < 4) (y : Int) (c : Nat)
    (hc : c = 0 ∨ c = 1) (buf : Buf) (hb : ∀ j, buf j < 256)
    (xa wa x0 w0 : Int) (hwa : 0 ≤ wa) (hw0 : 0 ≤ w0)
    (hmax : (max xa 0 : Int) = max x0 0) (hsum : xa + wa = x0 + w0) :
    drawFastHLine W H rot xa y wa c buf = hlinePixelLoop W H rot y c w0.toNat x0 buf := by
  rw [hlinePixelLoop_clip W H rot c y w0.toNat x0 buf,
    show ((w0.toNat : Nat) : Int) = w0 from Int.toNat_of_nonneg hw0]
  simp only [drawFastHLine]
  rw [if_neg (not_lt.mpr hwa)]
  dsimp only
  interval_cases rot
  · rw [show logicalW W H 0 = W from rfl, show logicalH W H 0 = H from rfl]
    by_cases hrej : y < 0 ∨ ((H : Nat) : Int) ≤ y ∨ ((W : Nat) : Int) ≤ xa ∨
        xa + wa - 1 < 0
    · rw [if_pos hrej]
      rcases hrej with h | h | h | h
      · rw [hlinePixelLoop_y_oob W H 0 c y (Or.inl h) _ _ _]
      · rw [hlinePixelLoop_y_oob W H 0 c y (Or.inr h) _ _ _]
      · rw [show (min (x0 + w0) ((W : Nat) : Int) - max x0 0).toNat = 0 from by omega]
        rfl
      · rw [show (min (x0 + w0) ((W : Nat) : Int) - max x0 0).toNat = 0 from by omega]
        rfl
    · rw [if_neg hrej]
      push_neg at hrej
      obtain ⟨hy0, hyH, hxw, hx1⟩ := hrej
      rw [show (if xa < 0 then ((0 : Int), wa + xa) else (xa, wa)) =
          ((max xa 0 : Int), wa + min xa 0) from by
        split
        · rw [Prod.mk.injEq]
          exact ⟨by omega, by omega⟩
        · rw [Prod.mk.injEq]
          exact ⟨by omega, by omega⟩]
      dsimp only
      rw [show (if ((W : Nat) : Int) ≤ max xa 0 + (wa + min xa 0) then
            ((W : Nat) : Int) - max xa 0
          else wa + min xa 0) = min (x0 + w0) ((W : Nat) : Int) - max x0 0 from by
        split <;> omega]
      rw [show (max x0 0 : Int) = max xa 0 from hmax.symm]
      rcases hc with rfl | rfl
      · exact bridge_r0_black W H y (max xa 0)
          (min (x0 + w0) ((W : Nat) : Int) - max xa 0) buf hb
          (by omega) (by omega) (by omega) (by omega) (by omega)
      · exact bridge_r0_white W H y (max xa 0)
          (min (x0 + w0) ((W : Nat) : Int) - max xa 0) buf hb
          (by omega) (by omega) (by omega) (by omega) (by omega)
  · rw [show logicalW W H 1 = H from rfl, show logicalH W H 1 = W from rfl]
    by_cases hrej : y < 0 ∨ ((W : Nat) : Int) ≤ y ∨ ((H : Nat) : Int) ≤ xa ∨
        xa + wa - 1 < 0
    · rw [if_pos hrej]
      rcases hrej with h | h | h | h
      · rw [hlinePixelLoop_y_oob W H 1 c y (Or.inl h) _ _ _]
      · rw [hlinePixelLoop_y_oob W H 1 c y (Or.inr h) _ _ _]
      · rw [show (min (x0 + w0) ((H : Nat) : Int) - max x0 0).toNat = 0 from by omega]
        rfl
      · rw [show (min (x0 + w0) ((H : Nat) : Int) - max x0 0).toNat = 0 from by omega]
        rfl
    · rw [if_neg hrej]
      push_neg at hrej
      obtain ⟨hy0, hyH, hxw, hx1⟩ := hrej
      rw [show (if xa < 0 then ((0 : Int), wa + xa) else (xa, wa)) =
          ((max xa 0 : Int), wa + min xa 0) from by
        split
        · rw [Prod.mk.injEq]
          exact ⟨by omega, by omega⟩
        · rw [Prod.mk.injEq]
          exact ⟨by omega, by omega⟩]
      dsimp only
      rw [show (if ((H : Nat) : Int) ≤ max xa 0 + (wa + min xa 0) then
            ((H : Nat) : Int) - max xa 0
          else wa + min xa 0) = min (x0 + w0) ((H : Nat) : Int) - max x0 0 from by
        split <;> omega]
      rw [show (max x0 0 : Int) = max xa 0 from hmax.symm]
      rcases hc with rfl | rfl
      · exact bridge_r1_black W H y (max xa 0)
          (min (x0 + w0) ((H : Nat) : Int) - max xa 0) buf hb
          (by omega) (by omega) (by omega) (by omega) (by omega)
      · exact bridge_r1_white W H y (max xa 0)
          (min (x0 + w0) ((H : Nat) : Int) - max xa 0) buf hb
          (by omega) (by omega) (by omega) (by omega) (by omega)
  · rw [show logicalW W H 2 = W from rfl, show logicalH W H 2 = H from rfl]
    by_cases hrej : y < 0 ∨ ((H : Nat) : Int) ≤ y ∨ ((W : Nat) : Int) ≤ xa ∨
        xa + wa - 1 < 0
    · rw [if_pos hrej]
      rcases hrej with h | h | h | h
      · rw [hlinePixelLoop_y_oob W H 2 c y (Or.inl h) _ _ _]
      · rw [hlinePixelLoop_y_oob W H 2 c y (Or.inr h) _ _ _]
      · rw [show (min (x0 + w0) ((W : Nat) : Int) - max x0 0).toNat = 0 from by omega]
        rfl
      · rw [show (min (x0 + w0) ((W : Nat) : Int) - max x0 0).toNat = 0 from by omega]
        rfl
    · rw [if_neg hrej]
      push_neg at hrej
      obtain ⟨hy0, hyH, hxw, hx1⟩ := hrej
      rw [show (if xa < 0 then ((0 : Int), wa + xa) else (xa, wa)) =
          ((max xa 0 : Int), wa + min xa 0) from by
        split
        · rw [Prod.mk.injEq]
          exact ⟨by omega, by omega⟩
        · rw [Prod.mk.injEq]
          exact ⟨by omega, by omega⟩]
      dsimp only
      rw [show (if ((W : Nat) : Int) ≤ max xa 0 + (wa + min xa 0) then
            ((W : Nat) : Int) - max xa 0
          else wa + min xa 0) = min (x0 + w0) ((W : Nat) : Int) - max x0 0 from by
        split <;> omega]
      rw [show (max x0 0 : Int) = max xa 0 from hmax.symm]
      rcases hc with rfl | rfl
      · exact bridge_r2_black W H y (max xa 0)
          (min (x0 + w0) ((W : Nat) : Int) - max xa 0) buf hb
          (by omega) (by omega) (by omega) (by omega) (by omega)
      · exact bridge_r2_white W H y (max xa 0)
          (min (x0 + w0) ((W : Nat) : Int) - max xa 0) buf hb
          (by omega) (by omega) (by omega) (by omega) (by omega)
  · rw [show logicalW W H 3 = H from rfl, show logicalH W H 3 = W from rfl]
    by_cases hrej : y < 0 ∨ ((W : Nat) : Int) ≤ y ∨ ((H : Nat) : Int) ≤ xa ∨
        xa + wa - 1 < 0
    · rw [if_pos hrej]
      rcases hrej with h | h | h | h
      · rw [hlinePixelLoop_y_oob W H 3 c y (Or.inl h) _ _ _]
      · rw [hlinePixelLoop_y_oob W H 3 c y (Or.inr h) _ _ _]
      · rw [show (min (x0 + w0) ((H : Nat) : Int) - max x0 0).toNat = 0 from by omega]
        rfl
      · rw [show (min (x0 + w0) ((H : Nat) : Int) - max x0 0).toNat = 0 from by omega]
        rfl
    · rw [if_neg hrej]
      push_neg at hrej
      obtain ⟨hy0, hyH, hxw, hx1⟩ := hrej
      rw [show (if xa < 0 then ((0 : Int), wa + xa) else (xa, wa)) =
          ((max xa 0 : Int), wa + min xa 0) from by
        split
        · rw [Prod.mk.injEq]
          exact ⟨by omega, by omega⟩
        · rw [Prod.mk.injEq]
          exact ⟨by omega, by omega⟩]
      dsimp only
      rw [show (if ((H : Nat) : Int) ≤ max xa 0 + (wa + min xa 0) then
            ((H : Nat) : Int) - max xa 0
          else wa + min xa 0) = min (x0 + w0) ((H : Nat) : Int) - max x0 0 from by
        split <;> omega]
      rw [show (max x0 0 : Int) = max xa 0 from hmax.symm]
      rcases hc with rfl | rfl
      · exact bridge_r3_black W H y (max xa 0)
          (min (x0 + w0) ((H : Nat) : Int) - max xa 0) buf hb
          (by omega) (by omega) (by omega) (by omega) (by omega)
      · exact bridge_r3_white W H y (max xa 0)
          (min (x0 + w0) ((H : Nat) : Int) - max xa 0) buf hb
          (by omega) (by omega) (by omega) (by omega) (by omega)

theorem drawFastHLine_neg (W H rot : Nat) (x y w : Int) (c : Nat) (buf : Buf) (hw : w < 0) :
    drawFastHLine W H rot x y w c buf =
      if x - (-w - 1) < 0 then
        (if 0 ≤ -w + (x - (-w - 1)) then
          drawFastHLine W H rot 0 y (-w + (x - (-w - 1))) c buf
         else buf)
      else drawFastHLine W H rot (x - (-w - 1)) y (-w) c buf := by
  by_cases hA : x - (-w - 1) < 0
  · rw [if_pos hA]
    by_cases hwa : 0 ≤ -w + (x - (-w - 1))
    · rw [if_pos hwa]
      simp only [drawFastHLine]
      rw [if_pos hw, if_pos hA, if_neg (not_lt.mpr hwa)]
    · rw [if_neg hwa]
      simp only [drawFastHLine]
      rw [if_pos hw, if_pos hA,
        show (((0 : Int), -w + (x - (-w - 1))) : Int × Int).1 = 0 from rfl,
        show (((0 : Int), -w + (x - (-w - 1))) : Int × Int).2 = -w + (x - (-w - 1)) from rfl,
        if_pos (Or.inr (Or.inr (Or.inr (by omega))))]
  · rw [if_neg hA]
    simp only [drawFastHLine]
    rw [if_pos hw, if_neg hA, if_neg (by omega : ¬(-w : Int) < 0)]

/-- C2 counterexample: `drawFastHLine` and the pixel-by-pixel `drawPixel`
loop disagree for the dithered color selectors.  Concretely on an 8 x 2
panel at rotation 0, a GRAY run of width 2 at (0, 0) from an all-zero
buffer: the fast path applies the 0xAA phase pattern to byte 0 and
produces 0x02, while two `drawPixel(.,.,GRAY)` calls, which paint white
exactly when `(x + y) % 2 == 0`, produce 0x01. -/
theorem c2_gray_counterexample :
    drawFastHLine 8 2 0 0 0 2 2 zeroBuf 0 = 2
    ∧ drawHLineByPixels 8 2 0 0 0 2 2 zeroBuf 0 = 1
    ∧ drawFastHLine 8 2 0 0 0 2 2 zeroBuf ≠ drawHLineByPixels 8 2 0 0 0 2 2 zeroBuf :=
  ⟨by decide, by decide, fun h =>
    (by decide : ¬drawFastHLine 8 2 0 0 0 2 2 zeroBuf 0 =
        drawHLineByPixels 8 2 0 0 0 2 2 zeroBuf 0) (congrFun h 0)⟩

/-- C2 (amended): for the solid colors 0 (BLACK) and 1 (WHITE), and for
every rotation, panel size, byte-valued framebuffer and every (x, y, w)
combination — including widths that are not multiples of 8 and negative
widths — `drawFastHLine` produces a framebuffer byte-identical to the one
produced from the same initial state by a pixel-by-pixel loop calling
`drawPixel` with the same color over the same logical run.  (For the
dithered selectors 2-7 the two paths genuinely differ, see the
counterexample.) -/
theorem c2_hline_equals_pixel_loop (W H rot : Nat) (hrot : rot < 4) (x y w : Int)
    (color : Nat) (hcol : color = 0 ∨ color = 1) (buf : Buf)
    (hb : ∀ j, buf j < 256) :
    drawFastHLine W H rot x y w color buf = drawHLineByPixels W H rot x y w color buf := by
  by_cases hw : w < 0
  · rw [drawFastHLine_neg W H rot x y w color buf hw]
    simp only [drawHLineByPixels, if_pos hw]
    by_cases hA : x - (-w - 1) < 0
    · rw [if_pos hA]
      by_cases hwa : 0 ≤ -w + (x - (-w - 1))
      · rw [if_pos hwa]
        exact c2_main W H rot hrot y color hcol buf hb 0 (-w + (x - (-w - 1)))
          (x - (-w - 1)) (-w) hwa (by omega) (by omega) (by omega)
      · rw [if_neg hwa]
        exact (hlinePixelLoop_left_oob W H rot color y (-w).toNat (x - (-w - 1)) buf
          (by omega)).symm
    · rw [if_neg hA]
      exact c2_main W H rot hrot y color hcol buf hb (x - (-w - 1)) (-w)
        (x - (-w - 1)) (-w) (by omega) (by omega) rfl rfl
  · push_neg at hw
    rw [c2_main W H rot hrot y color hcol buf hb x w x w hw hw rfl rfl]
    simp only [drawHLineByPixels, if_neg (not_lt.mpr hw)]

/-- Witness for C2 at a concrete input: rotation 2, a 10 x 4 panel (width
not a multiple of 8), a negative width and a partially off-canvas start. -/
theorem c2_hline_equals_pixel_loop_witness :
    drawFastHLine 10 4 2 7 1 (-5) 0 (fun _ => 255) =
      drawHLineByPixels 10 4 2 7 1 (-5) 0 (fun _ => 255) :=
  c2_hline_equals_pixel_loop 10 4 2 (by decide) 7 1 (-5) 0 (Or.inl rfl)
    (fun _ => 255) (fun _ => Nat.le.refl)

end SharpMem
